import Mathlib

/-!
# Verification of the claude-cortex-core memory engine

A shallow embedding, in Lean 4, of the memory consolidation pipeline of
`claude-cortex-core` (files `src/memory/consolidate.ts`,
`src/memory/similarity.ts`, `src/hooks/hook-config.ts`), together with
theorems settling the specification claims about it.

Database rows are modelled as lists of records; SQL `UPDATE`/`DELETE`
statements become list maps and filters applied by id; JavaScript numbers
are modelled as rationals (and as reals where the code uses `Math.log2`).
Code of the repository that is imported by `consolidate.ts` but whose
source file is not part of the repository snapshot (`memory/store.ts`,
`memory/decay.ts`, `database/init.ts`) is modelled from the specification;
each such definition carries a doc comment starting with
`Modelled from the spec:`.
-/

namespace CortexCore

/-! ## Stable sorting

`Array.prototype.sort` (ES2019) and SQL `ORDER BY` are modelled by a
stable insertion sort.  `lt a b = true` means `a` must come strictly
before `b`; ties keep their original relative order, which matches the
stability guarantee of `Array.prototype.sort`. -/
def stableInsert {α : Type} (lt : α → α → Bool) (a : α) : List α → List α
  | [] => [a]
  | b :: l => if lt b a then b :: stableInsert lt a l else a :: b :: l

def stableSort {α : Type} (lt : α → α → Bool) : List α → List α
  | [] => []
  | a :: l => stableInsert lt a (stableSort lt l)

/-! ## Data model

The `memories` table (spec §3): one record per row.  `project = ""`
models SQL `NULL` (the code coalesces a missing project with `''`).
The `tags` and `metadata` columns hold JSON text; `tags` is modelled in
parsed form as a list of strings, `metadata` as opaque text.  Salience
and scores are JavaScript numbers, modelled over a parameter type so that
the main development can use `ℚ` while the `Math.log2`-based salience
evolution is analysed over `ℝ`. -/
inductive MemType : Type
  | short_term
  | long_term
  | episodic
deriving DecidableEq, Repr

structure Mem (α : Type) : Type where
  id : Nat
  type : MemType
  category : String
  title : String
  content : String
  project : String
  tags : List String
  salience : α
  decayed_score : α
  access_count : Nat
  last_accessed : Nat
  created_at : Nat
  metadata : String
deriving DecidableEq, Repr

instance : Inhabited (Mem ℚ) :=
  ⟨⟨0, MemType.short_term, "", "", "", "", [], 0, 0, 0, 0, 0, ""⟩⟩

/-- A row of the `memory_links` table; only the endpoint ids matter for
the link counts used during consolidation. -/
structure MemLink : Type where
  source_id : Nat
  target_id : Nat
deriving DecidableEq, Repr

/-- Modelled from the spec: the fields of `MemoryConfig` (from the
missing `memory/types.ts`) that `consolidate.ts` reads:
`maxShortTermMemories`, `maxLongTermMemories`, `salienceThreshold`. -/
structure MemoryConfig : Type where
  maxShortTermMemories : Nat
  maxLongTermMemories : Nat
  salienceThreshold : ℚ
deriving DecidableEq, Repr

/-- The object literal returned by `consolidate()`
(`consolidate.ts` line 94): exactly the four counters
`{ consolidated, decayed, deleted, salienceEvolved }`. -/
structure ConsolidationResult : Type where
  consolidated : Nat
  decayed : Nat
  deleted : Nat
  salienceEvolved : Nat
deriving DecidableEq, Repr

def ids {α : Type} (db : List (Mem α)) : List Nat := db.map (·.id)

def countType {α : Type} (db : List (Mem α)) (t : MemType) : Nat :=
  (db.filter (fun m => m.type = t)).length

/-! ## similarity.ts

`tokenize` lowercases, replaces every character that is neither a word
character (`[a-z0-9_]` after lowercasing) nor whitespace by a space,
splits on whitespace, and keeps words of length `> 2`, as a set.
The JavaScript `Set` is modelled as a `Finset String`.
`String.split` of the Lean core library is not kernel-reducible, so the
whitespace split is implemented directly on the character list. -/
def isWordChar (c : Char) : Bool := c.isAlphanum || c == '_'

def normalizeChar (c : Char) : Char :=
  let c' := c.toLower
  if isWordChar c' || c'.isWhitespace then c' else ' '

/-- Split a character list on whitespace, returning the maximal
non-whitespace runs as strings. -/
def splitWsAux : List Char → List Char → List String
  | [], acc => if acc.isEmpty then [] else [String.mk acc.reverse]
  | c :: rest, acc =>
    if c.isWhitespace then
      if acc.isEmpty then splitWsAux rest []
      else String.mk acc.reverse :: splitWsAux rest []
    else splitWsAux rest (c :: acc)

def splitWs (cs : List Char) : List String := splitWsAux cs []

def tokenize (text : String) : Finset String :=
  (((splitWs (text.data.map normalizeChar)).filter
      (fun w => 2 < w.length))).toFinset

/-- `jaccardFromSets` (`similarity.ts` lines 26–37): `1` if both sets are
empty, `0` if exactly one is empty, else `|A ∩ B| / (|A| + |B| - |A ∩ B|)`
computed in JavaScript number arithmetic (here: `ℚ`). -/
def jaccardFromSets (A B : Finset String) : ℚ :=
  if A.card = 0 ∧ B.card = 0 then 1
  else if A.card = 0 ∨ B.card = 0 then 0
  else
    let inter : Nat := (A ∩ B).card
    (inter : ℚ) / ((A.card : ℚ) + (B.card : ℚ) - (inter : ℚ))

/-- `jaccardSimilarity` (`similarity.ts` lines 49–51). -/
def jaccardSimilarity (textA textB : String) : ℚ :=
  jaccardFromSets (tokenize textA) (tokenize textB)

/-! ## Store and decay primitives

`consolidate.ts` imports these from `memory/store.ts` and
`memory/decay.ts`, which are not part of the repository snapshot; they
are modelled from the specification.  The exact decay formula
(`salience * 0.995^hours * access_slowdown`, spec §4.2) involves `log2`
and wall-clock time; all claims settled here hold for every scoring
function, so the freshly computed decayed score is a parameter
`score : Mem ℚ → ℚ` of the consolidation model. -/
/-- Modelled from the spec: `deleteMemory` (store.ts) removes the row
with the given id (together with its full-text-index row, which is not
modelled separately). -/
def deleteMemory (db : List (Mem ℚ)) (i : Nat) : List (Mem ℚ) :=
  db.filter (fun m => m.id ≠ i)

/-- Modelled from the spec: `promoteMemory` (store.ts) turns the row
with the given id into a long-term memory. -/
def promoteMemory (db : List (Mem ℚ)) (i : Nat) : List (Mem ℚ) :=
  db.map (fun m => if m.id = i then { m with type := MemType.long_term } else m)

/-- The SQL `UPDATE memories SET salience = ? WHERE id = ?` statement of
`consolidate()` (consolidate.ts line 72). -/
def updateSalience (db : List (Mem ℚ)) (i : Nat) (s : ℚ) : List (Mem ℚ) :=
  db.map (fun m => if m.id = i then { m with salience := s } else m)

/-- Modelled from the spec: `getMemoriesByType` (store.ts) returns up to
`limit` rows of the given type. -/
def getMemoriesByType (db : List (Mem ℚ)) (t : MemType) (limit : Nat) :
    List (Mem ℚ) :=
  (db.filter (fun m => m.type = t)).take limit

/-- Modelled from the spec: the per-category deletion thresholds of
§4.2 (architecture 0.15; pattern, preference 0.20; note, todo 0.25;
everything else 0.22). -/
def categoryThreshold (category : String) : ℚ :=
  if category = "architecture" then 15/100
  else if category = "pattern" ∨ category = "preference" then 20/100
  else if category = "note" ∨ category = "todo" then 25/100
  else 22/100

/-- The `{ toDelete, toPromote, updated }` record returned by
`processDecay`. -/
structure DecayOutcome : Type where
  toDelete : List Nat
  toPromote : List Nat
  updated : List (Nat × ℚ)
deriving DecidableEq, Repr

/-- Modelled from the spec: `processDecay` (decay.ts) recomputes each
memory's decayed score (`score`), marks memories whose decayed score is
below their category threshold for deletion, marks memories with
`salience ≥ salienceThreshold` that have been accessed at least once for
promotion (§4.2), and reports the recomputed scores. -/
def processDecay (mems : List (Mem ℚ)) (config : MemoryConfig)
    (score : Mem ℚ → ℚ) : DecayOutcome where
  toDelete := (mems.filter (fun m => score m < categoryThreshold m.category)).map (·.id)
  toPromote := (mems.filter
    (fun m => config.salienceThreshold ≤ m.salience ∧ 1 ≤ m.access_count)).map (·.id)
  updated := mems.map (fun m => (m.id, score m))

/-- Modelled from the spec: `updateDecayScores` (store.ts) persists the
freshly computed decayed score of every remaining memory into the
`decayed_score` column (spec §4.5 step 7). -/
def updateDecayScores (score : Mem ℚ → ℚ) (db : List (Mem ℚ)) : List (Mem ℚ) :=
  db.map (fun m => { m with decayed_score := score m })

def findRow {α : Type} (db : List (Mem α)) (i : Nat) : Option (Mem α) :=
  db.find? (fun m => m.id = i)

/-! ## consolidate.ts: salience evolution -/
/-- `link_count` of a memory: rows of `memory_links` whose `source_id`
or `target_id` equals the memory's id (the SQL subquery in
`evolveSalience`). -/
def linkCount (links : List MemLink) (i : Nat) : Nat :=
  (links.filter (fun l => l.source_id = i ∨ l.target_id = i)).length

/-- `evolveSalience` (consolidate.ts lines 102–124), generic in the
number type so that it can be read over `ℝ` (where `log2` is
`Real.logb 2`) as well as over `ℚ` inside the consolidation model:
select all long-term and episodic rows as hubs, and for each hub with at
least 2 links add `min(0.1, log2(link_count) * 0.03)` to its salience,
capped at `1.0`, writing the row back only if the value strictly
increased.  Returns the new table and the number of rows updated. -/
def evolveStep {α : Type} [LinearOrderedField α] (log2 : Nat → α)
    (links : List MemLink) (acc : List (Mem α) × Nat) (hub : Mem α) :
    List (Mem α) × Nat :=
  if linkCount links hub.id < 2 then acc
  else
    let linkBonus := min (1/10 : α) (log2 (linkCount links hub.id) * (3/100))
    let newSalience := min (1 : α) (hub.salience + linkBonus)
    if hub.salience < newSalience then
      (acc.1.map (fun m =>
        if m.id = hub.id then { m with salience := newSalience } else m),
       acc.2 + 1)
    else acc

/-- The boosted salience that `evolveStep` writes for a hub:
`min(1, salience + min(0.1, log2(link_count) * 0.03))`. -/
def boostedSalience {α : Type} [LinearOrderedField α] (log2 : Nat → α)
    (links : List MemLink) (m : Mem α) : α :=
  min 1 (m.salience + min (1/10) (log2 (linkCount links m.id) * (3/100)))

def evolveSalience {α : Type} [LinearOrderedField α] (log2 : Nat → α)
    (db : List (Mem α)) (links : List MemLink) : List (Mem α) × Nat :=
  let hubs := db.filter
    (fun m => m.type = MemType.long_term ∨ m.type = MemType.episodic)
  hubs.foldl (evolveStep log2 links) (db, 0)

/-! ## consolidate.ts: capacity enforcement and the consolidation pass -/
/-- Sort key used by `enforceMemoryLimits` for short-term memories:
`ORDER BY salience ASC, last_accessed ASC`. -/
def ltShortPriority (a b : Mem ℚ) : Bool :=
  a.salience < b.salience ∨ (a.salience = b.salience ∧ a.last_accessed < b.last_accessed)

/-- Sort key used by `enforceMemoryLimits` for long-term memories:
`ORDER BY salience ASC, access_count ASC, last_accessed ASC`. -/
def ltLongPriority (a b : Mem ℚ) : Bool :=
  a.salience < b.salience ∨
    (a.salience = b.salience ∧
      (a.access_count < b.access_count ∨
        (a.access_count = b.access_count ∧ a.last_accessed < b.last_accessed)))

/-- One half of `enforceMemoryLimits`: if more than `maxCount` rows of
type `t` exist, delete the excess with the lowest priority. -/
def enforceLimitFor (db : List (Mem ℚ)) (t : MemType)
    (lt : Mem ℚ → Mem ℚ → Bool) (maxCount : Nat) : List (Mem ℚ) × Nat :=
  let current := countType db t
  if maxCount < current then
    let toRemove := current - maxCount
    let lowPriority :=
      ((stableSort lt (db.filter (fun m => m.type = t))).take toRemove).map (·.id)
    (lowPriority.foldl deleteMemory db, lowPriority.length)
  else (db, 0)

/-- `enforceMemoryLimits` (consolidate.ts lines 130–175): cap the
short-term count at `maxShortTermMemories`, then the long-term count at
`maxLongTermMemories`, deleting lowest-priority rows first; returns the
number of rows deleted. -/
def enforceMemoryLimits (db : List (Mem ℚ)) (config : MemoryConfig) :
    List (Mem ℚ) × Nat :=
  let st := enforceLimitFor db MemType.short_term ltShortPriority
    config.maxShortTermMemories
  let lt := enforceLimitFor st.1 MemType.long_term ltLongPriority
    config.maxLongTermMemories
  (lt.1, st.2 + lt.2)

/-- Everything produced by one `consolidate()` call: the new table, the
returned `ConsolidationResult`, and bookkeeping used by the theorems
(ids promoted, ids deleted by the decayed-deletion step, and the number
of `withTransaction` blocks the call opens). -/
structure ConsolidateOut : Type where
  db : List (Mem ℚ)
  result : ConsolidationResult
  promotedIds : List Nat
  step3DeletedIds : List Nat
  txCount : Nat
deriving DecidableEq, Repr

/-- `consolidate()` (consolidate.ts lines 42–96), inside a single
`withTransaction` block: fetch up to `2 * maxShortTermMemories`
short-term rows, run `processDecay` over them, promote `toPromote`,
delete the decayed rows (skipping rows just promoted), write the
recomputed scores into the `salience` column (skipping rows marked for
deletion), enforce the capacity limits, persist decay scores, evolve
salience, and return `{ consolidated, decayed, deleted, salienceEvolved }`.
The decayed-score recomputation (`score`) and the rational reading of
`Math.log2` (`log2`) are parameters, since `decay.ts` is not in the
snapshot; every theorem below holds for all instantiations. -/
def consolidateRun (score : Mem ℚ → ℚ) (log2 : Nat → ℚ)
    (db : List (Mem ℚ)) (links : List MemLink) (config : MemoryConfig) :
    List (Mem ℚ) × ConsolidationResult × List Nat × List Nat :=
  let shortTermMemories :=
    getMemoriesByType db MemType.short_term (config.maxShortTermMemories * 2)
  let d := processDecay shortTermMemories config score
  let db1 := d.toPromote.foldl promoteMemory db
  let step3 := d.toDelete.filter (fun i => decide (i ∉ d.toPromote))
  let db2 := step3.foldl deleteMemory db1
  let db3 := d.updated.foldl
    (fun acc u => if u.1 ∈ d.toDelete then acc
                  else updateSalience acc u.1 u.2) db2
  let decayed := (d.updated.filter (fun u => decide (u.1 ∉ d.toDelete))).length
  let enf := enforceMemoryLimits db3 config
  let db4 := updateDecayScores score enf.1
  let ev := evolveSalience log2 db4 links
  (ev.1,
    { consolidated := d.toPromote.length
      decayed := decayed
      deleted := step3.length + enf.2
      salienceEvolved := ev.2 },
    d.toPromote,
    step3)

def consolidate (score : Mem ℚ → ℚ) (log2 : Nat → ℚ)
    (db : List (Mem ℚ)) (links : List MemLink) (config : MemoryConfig) :
    ConsolidateOut :=
  { db := (consolidateRun score log2 db links config).1
    result := (consolidateRun score log2 db links config).2.1
    promotedIds := (consolidateRun score log2 db links config).2.2.1
    step3DeletedIds := (consolidateRun score log2 db links config).2.2.2
    txCount := 1 }

/-- The set of memories examined by step 1 of `consolidate()` (the
`processDecay` input, consolidate.ts line 52): up to
`2 * maxShortTermMemories` short-term rows. -/
def step1Memories (db : List (Mem ℚ)) (config : MemoryConfig) : List (Mem ℚ) :=
  getMemoriesByType db MemType.short_term (config.maxShortTermMemories * 2)

/-- The set of memories examined by `previewConsolidation`
(consolidate.ts lines 525–530): short-term rows (up to
`2 * maxShortTermMemories`) plus up to 100 episodic rows. -/
def previewInputMemories (db : List (Mem ℚ)) (config : MemoryConfig) :
    List (Mem ℚ) :=
  getMemoriesByType db MemType.short_term (config.maxShortTermMemories * 2) ++
    getMemoriesByType db MemType.episodic 100

/-! ## consolidate.ts: merging similar short-term memories -/
/-- Keep the first occurrence of each element (a JavaScript `Set` or
`Map` built by insertion preserves first-insertion order). -/
def firstDedupAux {α : Type} [DecidableEq α] : List α → List α → List α
  | [], _ => []
  | a :: l, seen =>
    if a ∈ seen then firstDedupAux l seen else a :: firstDedupAux l (a :: seen)

def firstDedup {α : Type} [DecidableEq α] (l : List α) : List α :=
  firstDedupAux l []

/-- The grouping key of `mergeSimilarMemories` (consolidate.ts line
200): the string `` `${mem.project || ''}|${mem.category || ''}` ``. -/
def memKey (m : Mem ℚ) : String := m.project ++ "|" ++ m.category

/-- The groups built by `mergeSimilarMemories`: a JavaScript `Map` from
key to rows, in first-insertion order; each group keeps table order. -/
def groupsOf (mems : List (Mem ℚ)) : List (List (Mem ℚ)) :=
  (firstDedup (mems.map memKey)).map (fun k => mems.filter (fun m => memKey m = k))

/-- The pre-tokenized combined similarity of group members `i` and `j`
(consolidate.ts lines 209–224): `contentSim * 0.6 + titleSim * 0.4`. -/
def combinedSim (group : List (Mem ℚ)) (i j : Nat) : ℚ :=
  let contentTokens := group.map (fun m => tokenize m.content)
  let titleTokens := group.map (fun m => tokenize m.title)
  jaccardFromSets (contentTokens.getD i ∅) (contentTokens.getD j ∅) * (6/10) +
    jaccardFromSets (titleTokens.getD i ∅) (titleTokens.getD j ∅) * (4/10)

/-- The cluster seeded at index `i` (consolidate.ts lines 217–229): `i`
followed by every later unclustered index whose combined similarity with
`i` reaches the threshold. -/
def buildCluster (sim : Nat → Nat → ℚ) (thr : ℚ) (clustered : List Nat)
    (i n : Nat) : List Nat :=
  i :: (List.range n).filter
    (fun j => i < j ∧ j ∉ clustered ∧ thr ≤ sim i j)

/-- The greedy clustering loop of `mergeSimilarMemories` (consolidate.ts
lines 212–233): scan indices in order; skip indices already clustered;
keep a seeded cluster only if it has at least 2 members, in which case
all its members become clustered. -/
def greedyClusters (sim : Nat → Nat → ℚ) (thr : ℚ) (n : Nat) :
    List (List Nat) :=
  ((List.range n).foldl
    (fun (st : List (List Nat) × List Nat) i =>
      if i ∈ st.2 then st
      else
        let c := buildCluster sim thr st.2 i n
        if c.length < 2 then st else (st.1 ++ [c], st.2 ++ c))
    ([], [])).1

/-- The comparator `(a, b) => b.salience - a.salience` used to sort a
cluster (consolidate.ts lines 236–238): descending salience, stable. -/
def clusterLt (a b : Mem ℚ) : Bool := b.salience < a.salience

/-- Merging one cluster (consolidate.ts lines 235–284): sort by
descending salience; the head is the base; append a bullet list of the
others under a `Consolidated context:` header; take the union of all
tags and the sum of all access counts; boost the base's salience by 0.1
capped at 1.0; promote the base to long-term; delete the others.
Returns the updated base row and the ids to delete. -/
def mergeCluster (clusterMems : List (Mem ℚ)) : Mem ℚ × List Nat :=
  match stableSort clusterLt clusterMems with
  | [] => (default, [])
  | base :: others =>
    let bulletPoints := String.intercalate "\n"
      (others.map (fun m => "- " ++ m.title ++ ": " ++ m.content))
    let mergedContent := base.content ++ "\n\nConsolidated context:\n" ++ bulletPoints
    let allTags := firstDedup ((base :: others).flatMap (·.tags))
    let totalAccessCount := (base :: others).foldl (fun s m => s + m.access_count) 0
    let newSalience := min 1 (base.salience + 1/10)
    ({ base with
        type := MemType.long_term
        content := mergedContent
        tags := allTags
        salience := newSalience
        access_count := totalAccessCount },
     others.map (·.id))

/-- Clustering and merging inside one `(project, category)` group:
groups with fewer than 2 members are skipped. -/
def processGroup (thr : ℚ) (group : List (Mem ℚ)) : List (Mem ℚ × List Nat) :=
  if group.length < 2 then []
  else (greedyClusters (combinedSim group) thr group.length).map
    (fun c => mergeCluster (c.map (fun i => group.getD i default)))

structure MergeOut : Type where
  db : List (Mem ℚ)
  deleted : Nat
  txCount : Nat
deriving DecidableEq, Repr

/-- The short-term selection of `mergeSimilarMemories` (consolidate.ts
lines 188–196): short-term rows, optionally of one project, ordered by
`created_at`. -/
def mergeSelection (db : List (Mem ℚ)) (project : Option String) :
    List (Mem ℚ) :=
  stableSort (fun a b => a.created_at < b.created_at)
    (db.filter (fun m =>
      decide (m.type = MemType.short_term) &&
        (match project with | none => true | some p => decide (m.project = p))))

/-- All cluster merges performed by one `mergeSimilarMemories` run:
for each `(project | category)` group, the merged base row and the ids
to delete of each greedy cluster. -/
def mergePlans (db : List (Mem ℚ)) (project : Option String) (thr : ℚ) :
    List (Mem ℚ × List Nat) :=
  (groupsOf (mergeSelection db project)).flatMap (processGroup thr)

/-- `mergeSimilarMemories` (consolidate.ts lines 180–290), inside its
own `withTransaction` block: select the short-term rows (optionally of
one project) ordered by `created_at`, group them by `project|category`,
cluster each group greedily by combined similarity, and apply each
cluster's merge (update the base row, delete the others).  Returns the
number of rows deleted. -/
def mergeSimilarMemories (db : List (Mem ℚ)) (project : Option String)
    (similarityThreshold : ℚ) : MergeOut :=
  let plans := mergePlans db project similarityThreshold
  let deletedIds := plans.flatMap (·.2)
  let bases := plans.map (·.1)
  { db := (db.filter (fun m => ¬ deletedIds.contains m.id)).map
      (fun m => match bases.find? (fun b => b.id = m.id) with
        | some b => b
        | none => m)
    deleted := deletedIds.length
    txCount := 1 }

/-! ## consolidate.ts: export, import, full cleanup -/
/-- `exportMemories` (consolidate.ts lines 449–462): all rows
(optionally of one project) ordered by `created_at`; the JSON
serialization is modelled as the row list itself. -/
def exportMemories (db : List (Mem ℚ)) (project : Option String) :
    List (Mem ℚ) :=
  stableSort (fun a b => a.created_at < b.created_at)
    (db.filter (fun m =>
      match project with | none => true | some p => decide (m.project = p)))

structure ImportOut : Type where
  db : List (Mem ℚ)
  imported : Nat
  txCount : Nat
deriving DecidableEq, Repr

/-- Modelled from the spec: ids are assigned on insert and never
reused. -/
def nextId (db : List (Mem ℚ)) : Nat := (ids db).foldl max 0 + 1

/-- One inserted row of `importMemories` (consolidate.ts lines 472–489):
the `INSERT` lists only `type, category, title, content, project, tags,
salience, metadata`, with the JavaScript `||`-defaults of lines 485–488
(`project || null`, `tags || '[]'`, `salience || 0.5`,
`metadata || '{}'`); every other column takes its schema default,
modelled from the spec: a fresh id, `created_at` and `last_accessed` set
to the insertion time, `access_count = 0`, and an initial
`decayed_score` equal to the stored salience (§4.4 step 3). -/
def importRow (now newId : Nat) (r : Mem ℚ) : Mem ℚ where
  id := newId
  type := r.type
  category := r.category
  title := r.title
  content := r.content
  project := r.project
  tags := r.tags
  salience := if r.salience = 0 then 1/2 else r.salience
  decayed_score := if r.salience = 0 then 1/2 else r.salience
  access_count := 0
  last_accessed := now
  created_at := now
  metadata := if r.metadata = "" then "\x7b\x7d" else r.metadata

/-- One iteration of the `importMemories` insert loop: skip the row if
it collides with an existing `(project, title, created_at)` triple,
else insert it. -/
def importStep (now : Nat) (acc : ImportOut) (r : Mem ℚ) : ImportOut :=
  if acc.db.any (fun m =>
      m.project = r.project ∧ m.title = r.title ∧ m.created_at = now) then
    acc
  else
    { acc with
        db := acc.db ++ [importRow now (nextId acc.db) r]
        imported := acc.imported + 1 }

/-- `importMemories` (consolidate.ts lines 467–498), inside one
`withTransaction` block: insert each row in order; an insert that
collides with an existing `(project, title, created_at)` triple throws
and is silently skipped (the catch block; the uniqueness of that triple
is modelled from the spec §6).  Returns the number of rows inserted. -/
def importMemories (db : List (Mem ℚ)) (rows : List (Mem ℚ)) (now : Nat) :
    ImportOut :=
  rows.foldl (importStep now) { db := db, imported := 0, txCount := 1 }

/-- `vacuumDatabase` (consolidate.ts lines 503–511) always succeeds in
the model. -/
def vacuumDatabase : Bool := true

structure CleanupOut : Type where
  consolidation : ConsolidationResult
  vacuumed : Bool
  merged : Nat
  db : List (Mem ℚ)
  txCount : Nat
deriving DecidableEq, Repr

/-- `fullCleanup` (consolidate.ts lines 583–596): run `consolidate()`
(one transaction), then `mergeSimilarMemories()` with its default
arguments (no project filter, threshold 0.25; a second transaction),
then vacuum if anything was deleted or merged, and return
`{ consolidation, vacuumed, merged }`. -/
def fullCleanup (score : Mem ℚ → ℚ) (log2 : Nat → ℚ)
    (db : List (Mem ℚ)) (links : List MemLink) (config : MemoryConfig) :
    CleanupOut :=
  let c := consolidate score log2 db links config
  let m := mergeSimilarMemories c.db none (1/4)
  { consolidation := c.result
    vacuumed := if 0 < c.result.deleted ∨ 0 < m.deleted then vacuumDatabase else false
    merged := m.deleted
    db := m.db
    txCount := c.txCount + m.txCount }

/-! ## hooks/hook-config.ts -/
structure PreCompactConfig : Type where
  enabled : Bool
  minSalience : ℚ
  maxMemoriesPerCompact : Int
  categories : List String
  autoTag : String
  timeout : Int
deriving DecidableEq, Repr

structure SessionStartConfig : Type where
  enabled : Bool
  maxMemories : Int
  minSalience : ℚ
  categories : List String
  format : String
  timeout : Int
deriving DecidableEq, Repr

structure HookConfig : Type where
  preCompact : PreCompactConfig
  sessionStart : SessionStartConfig
deriving DecidableEq, Repr

/-- `DEFAULT_PRE_COMPACT_CONFIG` (hook-config.ts lines 14–21). -/
def DEFAULT_PRE_COMPACT_CONFIG : PreCompactConfig where
  enabled := true
  minSalience := 30/100
  maxMemoriesPerCompact := 5
  categories := ["architecture", "pattern", "error", "learning"]
  autoTag := "auto-extracted"
  timeout := 5000

/-- `DEFAULT_SESSION_START_CONFIG` (hook-config.ts lines 23–30). -/
def DEFAULT_SESSION_START_CONFIG : SessionStartConfig where
  enabled := true
  maxMemories := 15
  minSalience := 1/2
  categories := ["architecture", "pattern", "preference"]
  format := "summary"
  timeout := 3000

/-- `DEFAULT_CONFIG` (hook-config.ts lines 32–35). -/
def DEFAULT_HOOK_CONFIG : HookConfig where
  preCompact := DEFAULT_PRE_COMPACT_CONFIG
  sessionStart := DEFAULT_SESSION_START_CONFIG

/-- A user-supplied `Partial<HookConfig>`: every field may be absent. -/
structure PartialPreCompactConfig : Type where
  enabled : Option Bool
  minSalience : Option ℚ
  maxMemoriesPerCompact : Option Int
  categories : Option (List String)
  autoTag : Option String
  timeout : Option Int
deriving DecidableEq, Repr

structure PartialSessionStartConfig : Type where
  enabled : Option Bool
  maxMemories : Option Int
  minSalience : Option ℚ
  categories : Option (List String)
  format : Option String
  timeout : Option Int
deriving DecidableEq, Repr

structure PartialHookConfig : Type where
  preCompact : Option PartialPreCompactConfig
  sessionStart : Option PartialSessionStartConfig
deriving DecidableEq, Repr

/-- One `if (x !== undefined && outOfRange(x)) errors.push(msg)` check of
`validateConfig`: an absent value passes, a supplied bad value produces
its error message. -/
def checkOpt {β : Type} (o : Option β) (bad : β → Bool) (msg : String) :
    List String :=
  match o with
  | none => []
  | some v => if bad v then [msg] else []

/-- `validateConfig` (hook-config.ts lines 76–109): collect an error
message for every supplied value that is out of range, in source
order. -/
def validateConfig (config : PartialHookConfig) : List String :=
  (match config.preCompact with
    | none => []
    | some pc =>
      checkOpt pc.minSalience (fun v => v < 0 ∨ 1 < v)
        "preCompact.minSalience must be between 0 and 1" ++
      checkOpt pc.maxMemoriesPerCompact (fun v => v < 0)
        "preCompact.maxMemoriesPerCompact must be non-negative" ++
      checkOpt pc.timeout (fun v => v < 0 ∨ 30000 < v)
        "preCompact.timeout must be between 0 and 30000ms") ++
  (match config.sessionStart with
    | none => []
    | some ss =>
      checkOpt ss.minSalience (fun v => v < 0 ∨ 1 < v)
        "sessionStart.minSalience must be between 0 and 1" ++
      checkOpt ss.maxMemories (fun v => v < 0)
        "sessionStart.maxMemories must be non-negative" ++
      checkOpt ss.timeout (fun v => v < 0 ∨ 30000 < v)
        "sessionStart.timeout must be between 0 and 30000ms" ++
      checkOpt ss.format (fun v => ¬ (v = "summary" ∨ v = "detailed" ∨ v = "minimal"))
        "sessionStart.format must be summary, detailed, or minimal")

/-- `deepMerge` (hook-config.ts lines 51–71) specialized to the
`HookConfig` shape: a supplied leaf value replaces the default, an
absent one keeps it; nested objects merge recursively, arrays are
replaced wholesale. -/
def deepMergePreCompact (d : PreCompactConfig) (p : PartialPreCompactConfig) :
    PreCompactConfig where
  enabled := p.enabled.getD d.enabled
  minSalience := p.minSalience.getD d.minSalience
  maxMemoriesPerCompact := p.maxMemoriesPerCompact.getD d.maxMemoriesPerCompact
  categories := p.categories.getD d.categories
  autoTag := p.autoTag.getD d.autoTag
  timeout := p.timeout.getD d.timeout

def deepMergeSessionStart (d : SessionStartConfig)
    (p : PartialSessionStartConfig) : SessionStartConfig where
  enabled := p.enabled.getD d.enabled
  maxMemories := p.maxMemories.getD d.maxMemories
  minSalience := p.minSalience.getD d.minSalience
  categories := p.categories.getD d.categories
  format := p.format.getD d.format
  timeout := p.timeout.getD d.timeout

def deepMerge (d : HookConfig) (u : PartialHookConfig) : HookConfig where
  preCompact := match u.preCompact with
    | none => d.preCompact
    | some p => deepMergePreCompact d.preCompact p
  sessionStart := match u.sessionStart with
    | none => d.sessionStart
    | some p => deepMergeSessionStart d.sessionStart p

/-- What `loadHookConfig` finds at `~/.claude-cortex/hooks.json`. -/
inductive ConfigSource : Type
  | missing
  | invalidJson
  | parsed (u : PartialHookConfig)
deriving DecidableEq, Repr

/-- `loadHookConfig` (hook-config.ts lines 114–153): missing file →
defaults; unparseable JSON (the catch block) → defaults; validation
errors → defaults, discarding the whole user configuration; otherwise
the user configuration deep-merged over the defaults.  The
mtime-based cache only affects when the file is re-read, not the
value computed from given file contents, and is not modelled. -/
def loadHookConfig (src : ConfigSource) : HookConfig :=
  match src with
  | ConfigSource.missing => DEFAULT_HOOK_CONFIG
  | ConfigSource.invalidJson => DEFAULT_HOOK_CONFIG
  | ConfigSource.parsed u =>
    if validateConfig u ≠ [] then DEFAULT_HOOK_CONFIG
    else deepMerge DEFAULT_HOOK_CONFIG u

def exDbC1 : List (Mem ℚ) :=
  [⟨1, MemType.short_term, "note", "t1", "c1", "", [], 1/2, 1/2, 0, 0, 0, "m"⟩,
   ⟨2, MemType.short_term, "note", "t2", "c2", "", [], 3/10, 3/10, 0, 1, 1, "m"⟩,
   ⟨3, MemType.long_term, "pattern", "t3", "c3", "", [], 9/10, 9/10, 2, 2, 2, "m"⟩]

def exCfgC1 : MemoryConfig := ⟨1, 1, 3/5⟩

/-- The episodic row used to refute claim C4. -/
def epMemC4 : Mem ℚ :=
  ⟨1, MemType.episodic, "note", "session marker", "episodic body", "", [],
    1/10, 1/10, 0, 0, 0, "meta"⟩

def exDbC4 : List (Mem ℚ) := [epMemC4]

def exCfgC4 : MemoryConfig := ⟨100, 1000, 3/5⟩

def stMemC4 : Mem ℚ :=
  ⟨2, MemType.short_term, "note", "short title", "short body", "", [],
    1/2, 1/2, 0, 0, 0, "meta"⟩

/-- A user configuration whose only flaw is `minSalience = 2`, with
other (valid) values supplied. -/
def badUserConfigC10 : PartialHookConfig :=
  ⟨some ⟨some false, some 2, some 3, none, none, some 1000⟩, none⟩

noncomputable def exMemC5 : Mem ℝ :=
  ⟨1, MemType.short_term, "note", "t", "c", "", [], 1/2, 1/2, 0, 0, 0, "m"⟩

def exLinksC5 : List MemLink := [⟨1, 2⟩, ⟨3, 1⟩]

noncomputable def wMemC5 : Mem ℝ :=
  ⟨1, MemType.long_term, "note", "t", "c", "", [], 1/2, 1/2, 0, 0, 0, "m"⟩

/-- The row produced by merging the two-element cluster `[m1, m2]` with
base `m1`. -/
def mergedPair (m1 m2 : Mem ℚ) : Mem ℚ :=
  { m1 with
    type := MemType.long_term
    content := m1.content ++ "\n\nConsolidated context:\n" ++
      ("- " ++ m2.title ++ ": " ++ m2.content)
    tags := firstDedup (m1.tags ++ m2.tags)
    salience := min 1 (m1.salience + 1/10)
    access_count := m1.access_count + m2.access_count }

/-! ## Consolidation never rewrites row content (claim C3) -/
/-- The fields of a row that `consolidate()` can never change: identity,
text, classification, tags, access statistics and timestamps.  Only
`type`, `salience` and `decayed_score` are outside this view. -/
def rowCore {α : Type} (m : Mem α) :
    Nat × String × String × String × String × List String × String ×
      Nat × Nat × Nat :=
  (m.id, m.title, m.content, m.category, m.project, m.tags, m.metadata,
    m.access_count, m.last_accessed, m.created_at)

/-- `db'` only contains rows whose core fields occur in `db`. -/
def CorePres (db' db : List (Mem ℚ)) : Prop :=
  ∀ m' ∈ db', ∃ m ∈ db, rowCore m' = rowCore m

def mC3a : Mem ℚ :=
  ⟨1, MemType.short_term, "note", "t", "c", "", ["x"], 1/2, 1/2, 0, 0, 0, "m"⟩

def mC3b : Mem ℚ :=
  ⟨2, MemType.short_term, "note", "t", "c", "", ["y"], 1/2, 1/2, 0, 0, 1, "m"⟩

def exDbC3 : List (Mem ℚ) := [mC3a, mC3b]

def exCfgC3 : MemoryConfig := ⟨100, 1000, 3/5⟩

def mC3w : Mem ℚ :=
  ⟨1, MemType.short_term, "note", "t", "c", "", ["x"], 1/2, 1/2, 0, 0, 0, "m"⟩

/-! ## The 10 KiB content limit is bypassed by merging (claim C6) -/
def bigContentC6 : String := String.mk (List.replicate 10240 'a')

def mC6a : Mem ℚ :=
  ⟨1, MemType.short_term, "note", "t", bigContentC6, "", [], 9/10, 9/10,
    0, 0, 0, "m"⟩

def mC6b : Mem ℚ :=
  ⟨2, MemType.short_term, "note", "t", bigContentC6, "", [], 1/2, 1/2,
    0, 0, 1, "m"⟩

/-! ## Export / import round trip (claim C7) -/
/-- The eight columns that `importMemories` actually carries over
(after its JavaScript `||`-defaults). -/
def coreView (m : Mem ℚ) :
    MemType × String × String × String × String × List String × ℚ × String :=
  (m.type, m.category, m.title, m.content, m.project, m.tags,
    m.salience, m.metadata)

/-- The `coreView` of the row that importing `r` inserts. -/
def importedView (r : Mem ℚ) :
    MemType × String × String × String × String × List String × ℚ × String :=
  (r.type, r.category, r.title, r.content, r.project, r.tags,
    if r.salience = 0 then 1/2 else r.salience,
    if r.metadata = "" then "\x7b\x7d" else r.metadata)

def tripleView (m : Mem ℚ) : String × String × Nat :=
  (m.project, m.title, m.created_at)

def pairView (m : Mem ℚ) : String × String := (m.project, m.title)

def mC7 : Mem ℚ :=
  ⟨1, MemType.long_term, "note", "T", "body", "p", ["g"], 7/10, 7/10,
    5, 3, 3, "meta"⟩

def mC7w : Mem ℚ :=
  ⟨1, MemType.long_term, "note", "T", "body", "p", ["g"], 7/10, 7/10,
    5, 3, 3, "meta"⟩

/-! ## Characterizing the merge pipeline (claim C2) -/
/-- The separator character of the grouping key of
`mergeSimilarMemories`. -/
def chrBar : Char := '|'

/-- One step of the greedy clustering loop (consolidate.ts lines
214-233), named for the proofs: skip a clustered seed; keep the seeded
cluster only when it has at least two members. -/
def clusterStep (sim : Nat → Nat → ℚ) (thr : ℚ) (n : Nat)
    (st : List (List Nat) × List Nat) (i : Nat) :
    List (List Nat) × List Nat :=
  if i ∈ st.2 then st
  else if (buildCluster sim thr st.2 i n).length < 2 then st
  else (st.1 ++ [buildCluster sim thr st.2 i n],
    st.2 ++ buildCluster sim thr st.2 i n)

def mC2a : Mem ℚ :=
  ⟨1, MemType.short_term, "y", "t", "c", "x|", [], 1/2, 1/2, 0, 0, 0, "m"⟩

def mC2b : Mem ℚ :=
  ⟨2, MemType.short_term, "|y", "t", "c", "x", [], 1/2, 1/2, 0, 0, 1, "m"⟩

theorem stableInsert_perm {α : Type} (lt : α → α → Bool) (a : α) (l : List α) :
    (stableInsert lt a l).Perm (a :: l) := by
  induction l with
  | nil => simp [stableInsert]
  | cons b t ih =>
    simp only [stableInsert]
    by_cases h : lt b a = true
    · simp only [if_pos h]
      exact ((ih.cons b).trans (List.Perm.swap a b t))
    · simp only [if_neg h]
      exact List.Perm.refl _

theorem stableSort_perm {α : Type} (lt : α → α → Bool) (l : List α) :
    (stableSort lt l).Perm l := by
  induction l with
  | nil => simp [stableSort]
  | cons a t ih =>
    exact (stableInsert_perm lt a (stableSort lt t)).trans (ih.cons a)

theorem stableSort_length {α : Type} (lt : α → α → Bool) (l : List α) :
    (stableSort lt l).length = l.length :=
  (stableSort_perm lt l).length_eq

/-- In the sorted output, no later element is strictly below an earlier one,
assuming `lt` is asymmetric and negatively transitive. -/
theorem stableSort_pairwise {α : Type} (lt : α → α → Bool)
    (hasym : ∀ a b, lt a b = true → lt b a = false)
    (hnt : ∀ a b c, lt c b = false → lt b a = false → lt c a = false)
    (l : List α) :
    (stableSort lt l).Pairwise (fun x y => lt y x = false) := by
  induction l with
  | nil => simp [stableSort]
  | cons a t ih =>
    simp only [stableSort]
    generalize hs : stableSort lt t = s at ih
    clear hs
    induction s with
    | nil => simp [stableInsert]
    | cons b u ihu =>
      rcases List.pairwise_cons.mp ih with ⟨hb, hu⟩
      by_cases h : lt b a = true
      · simp only [stableInsert, if_pos h]
        refine List.pairwise_cons.mpr ⟨?_, ihu hu⟩
        intro y hy
        have hperm := stableInsert_perm lt a u
        have hy' : y ∈ a :: u := hperm.mem_iff.mp hy
        rcases List.mem_cons.mp hy' with rfl | hyu
        · exact hasym b y h
        · exact hb y hyu
      · simp only [stableInsert, if_neg h]
        have hba : lt b a = false := by
          cases hlt : lt b a with
          | false => rfl
          | true => exact absurd hlt h
        refine List.pairwise_cons.mpr ⟨?_, ih⟩
        intro y hy
        rcases List.mem_cons.mp hy with rfl | hyu
        · exact hba
        · exact hnt a b y (hb y hyu) hba

theorem jaccardFromSets_self (A : Finset String) : jaccardFromSets A A = 1 := by
  by_cases h : A.card = 0
  · simp [jaccardFromSets, h]
  · have hlt : 0 < A.card := Nat.pos_of_ne_zero h
    simp only [jaccardFromSets, Finset.inter_self, if_neg (by tauto), if_neg (by tauto)]
    have hq : (A.card : ℚ) ≠ 0 := by exact_mod_cast h
    field_simp

theorem jaccardFromSets_comm (A B : Finset String) :
    jaccardFromSets A B = jaccardFromSets B A := by
  unfold jaccardFromSets
  by_cases hA : A.card = 0 <;> by_cases hB : B.card = 0
  · simp [hA, hB]
  · simp [hA, hB]
  · simp [hA, hB]
  · have hand : ¬(A.card = 0 ∧ B.card = 0) := by tauto
    have hand' : ¬(B.card = 0 ∧ A.card = 0) := by tauto
    have hor : ¬(A.card = 0 ∨ B.card = 0) := by tauto
    have hor' : ¬(B.card = 0 ∨ A.card = 0) := by tauto
    simp only [if_neg hand, if_neg hand', if_neg hor, if_neg hor']
    rw [Finset.inter_comm]
    ring_nf

theorem jaccard_inter_le_card (A B : Finset String) : (A ∩ B).card ≤ A.card :=
  Finset.card_le_card Finset.inter_subset_left

theorem jaccard_denom_pos (A B : Finset String) (hA : A.card ≠ 0) :
    (0 : ℚ) < (A.card : ℚ) + (B.card : ℚ) - ((A ∩ B).card : ℚ) := by
  have h1 : ((A ∩ B).card : ℚ) ≤ (B.card : ℚ) := by
    exact_mod_cast Finset.card_le_card Finset.inter_subset_right
  have h2 : (0 : ℚ) < (A.card : ℚ) := by
    exact_mod_cast Nat.pos_of_ne_zero hA
  linarith

theorem jaccardFromSets_nonneg (A B : Finset String) : 0 ≤ jaccardFromSets A B := by
  unfold jaccardFromSets
  by_cases hA : A.card = 0 <;> by_cases hB : B.card = 0
  · simp [hA, hB]
  · simp [hA, hB]
  · simp [hA, hB]
  · have hand : ¬(A.card = 0 ∧ B.card = 0) := by tauto
    have hor : ¬(A.card = 0 ∨ B.card = 0) := by tauto
    simp only [if_neg hand, if_neg hor]
    exact div_nonneg (by positivity) (le_of_lt (jaccard_denom_pos A B hA))

theorem jaccardFromSets_le_one (A B : Finset String) : jaccardFromSets A B ≤ 1 := by
  unfold jaccardFromSets
  by_cases hA : A.card = 0 <;> by_cases hB : B.card = 0
  · simp [hA, hB]
  · simp [hA, hB]
  · simp [hA, hB]
  · have hand : ¬(A.card = 0 ∧ B.card = 0) := by tauto
    have hor : ¬(A.card = 0 ∨ B.card = 0) := by tauto
    simp only [if_neg hand, if_neg hor]
    have h1 : ((A ∩ B).card : ℚ) ≤ (A.card : ℚ) := by
      exact_mod_cast jaccard_inter_le_card A B
    have h2 : (0 : ℚ) ≤ (B.card : ℚ) := by positivity
    rw [div_le_one (jaccard_denom_pos A B hA)]
    have h3 : ((A ∩ B).card : ℚ) ≤ (B.card : ℚ) := by
      exact_mod_cast Finset.card_le_card Finset.inter_subset_right
    have h4 : (0 : ℚ) < (A.card : ℚ) := by
      exact_mod_cast Nat.pos_of_ne_zero hA
    linarith

/-! ## Helper lemmas about the table model -/
theorem ids_filter_sublist {α : Type} (db : List (Mem α)) (p : Mem α → Bool) :
    (ids (db.filter p)).Sublist (ids db) := by
  unfold ids
  exact List.Sublist.map _ (List.filter_sublist db)

theorem nodup_ids_filter {α : Type} (db : List (Mem α)) (p : Mem α → Bool)
    (h : (ids db).Nodup) : (ids (db.filter p)).Nodup :=
  (ids_filter_sublist db p).nodup h

theorem mem_of_same_id {α : Type} {db : List (Mem α)} (h : (ids db).Nodup)
    {m m' : Mem α} (hm : m ∈ db) (hm' : m' ∈ db) (hid : m.id = m'.id) :
    m = m' :=
  List.inj_on_of_nodup_map h hm hm' hid

theorem foldl_deleteMemory (rem : List Nat) (db : List (Mem ℚ)) :
    rem.foldl deleteMemory db = db.filter (fun m => decide (m.id ∉ rem)) := by
  induction rem generalizing db with
  | nil => simp
  | cons i rest ih =>
    simp only [List.foldl_cons]
    rw [show deleteMemory db i = db.filter (fun m => decide (m.id ≠ i)) from rfl, ih,
      List.filter_filter]
    apply List.filter_congr
    intro m _
    by_cases h1 : m.id = i <;> by_cases h2 : m.id ∈ rest <;>
      simp [h1, h2]

theorem map_filter_comm {α β : Type} (f : α → β) (q : β → Bool) (l : List α) :
    (l.filter (fun a => q (f a))).map f = (l.map f).filter q := by
  induction l with
  | nil => rfl
  | cons a t ih =>
    by_cases h : q (f a) <;> simp [h, ih]

theorem filter_mem_perm_of_subset {s l : List Nat} (hl : l.Nodup)
    (hs : s.Nodup) (hsub : s ⊆ l) :
    (l.filter (fun a => decide (a ∈ s))).Perm s := by
  apply List.Subperm.antisymm
  · exact List.subperm_of_subset (hl.filter _)
      (fun a ha => (of_decide_eq_true (List.mem_filter.mp ha).2))
  · exact List.subperm_of_subset hs
      (fun a ha => List.mem_filter.mpr ⟨hsub ha, decide_eq_true ha⟩)

theorem length_filter_add_length_filter_not {α : Type} (p : α → Bool) (l : List α) :
    (l.filter p).length + (l.filter (fun a => !(p a))).length = l.length := by
  induction l with
  | nil => rfl
  | cons a t ih =>
    by_cases h : p a <;> simp [h, ih] <;> omega

theorem countType_filter_not_mem {db : List (Mem ℚ)} {t : MemType}
    {sel : List Nat} (hnd : (ids db).Nodup) (hs : sel.Nodup)
    (hsub : sel ⊆ ids (db.filter (fun m => decide (m.type = t)))) :
    countType (db.filter (fun m => decide (m.id ∉ sel))) t =
      countType db t - sel.length := by
  unfold countType
  rw [List.filter_comm]
  set fl := db.filter (fun m => decide (m.type = t)) with hfl
  have hflnd : (ids fl).Nodup := nodup_ids_filter db _ hnd
  have hkey : (fl.filter (fun m => decide (m.id ∈ sel))).length = sel.length := by
    have hmap : (fl.filter (fun m => decide (m.id ∈ sel))).map (·.id) =
        (fl.map (·.id)).filter (fun a => decide (a ∈ sel)) :=
      map_filter_comm (·.id) (fun a => decide (a ∈ sel)) fl
    have hperm : ((fl.map (·.id)).filter (fun a => decide (a ∈ sel))).Perm sel :=
      filter_mem_perm_of_subset hflnd hs hsub
    calc (fl.filter (fun m => decide (m.id ∈ sel))).length
        = ((fl.filter (fun m => decide (m.id ∈ sel))).map (·.id)).length := by
          rw [List.length_map]
      _ = ((fl.map (·.id)).filter (fun a => decide (a ∈ sel))).length := by rw [hmap]
      _ = sel.length := hperm.length_eq
  have htot := length_filter_add_length_filter_not
    (fun m : Mem ℚ => decide (m.id ∈ sel)) fl
  have hcongr : fl.filter (fun m => !(decide (m.id ∈ sel))) =
      fl.filter (fun m => decide (m.id ∉ sel)) := by
    apply List.filter_congr
    intro m _
    by_cases h : m.id ∈ sel <;> simp [h]
  rw [hcongr] at htot
  omega

theorem countType_filter_other {db : List (Mem ℚ)} {t t' : MemType}
    {sel : List Nat} (hnd : (ids db).Nodup) (hne : t' ≠ t)
    (hsub : sel ⊆ ids (db.filter (fun m => decide (m.type = t)))) :
    countType (db.filter (fun m => decide (m.id ∉ sel))) t' = countType db t' := by
  unfold countType
  rw [List.filter_comm]
  congr 1
  apply List.filter_eq_self.mpr
  intro m hm
  rcases List.mem_filter.mp hm with ⟨hmdb, hmt⟩
  have hmt' : m.type = t' := of_decide_eq_true hmt
  apply decide_eq_true
  intro hmem
  rcases List.mem_map.mp (hsub hmem) with ⟨m', hm', hid⟩
  rcases List.mem_filter.mp hm' with ⟨hm'db, hm't⟩
  have : m' = m := mem_of_same_id hnd hm'db hmdb hid
  subst this
  exact hne (hmt'.symm.trans (of_decide_eq_true hm't))

theorem enforceLimitFor_spec (db : List (Mem ℚ)) (t : MemType)
    (lt : Mem ℚ → Mem ℚ → Bool) (maxCount : Nat) (hnd : (ids db).Nodup) :
    countType (enforceLimitFor db t lt maxCount).1 t ≤ maxCount ∧
    (∀ t', t' ≠ t →
      countType (enforceLimitFor db t lt maxCount).1 t' = countType db t') ∧
    (ids (enforceLimitFor db t lt maxCount).1).Nodup := by
  unfold enforceLimitFor
  by_cases hover : maxCount < countType db t
  · simp only [if_pos hover]
    set fl := db.filter (fun m => decide (m.type = t)) with hfl
    set toRemove := countType db t - maxCount with htr
    set sel := ((stableSort lt fl).take toRemove).map (·.id) with hsel
    have hsorted_len : (stableSort lt fl).length = fl.length := stableSort_length lt fl
    have hcur : countType db t = fl.length := rfl
    have hflnd : (ids fl).Nodup := nodup_ids_filter db _ hnd
    have hsortnd : ((stableSort lt fl).map (·.id)).Nodup := by
      have hperm : ((stableSort lt fl).map (·.id)).Perm (fl.map (·.id)) :=
        (stableSort_perm lt fl).map _
      exact hperm.nodup_iff.mpr hflnd
    have hselnd : sel.Nodup := by
      rw [hsel, List.map_take]
      exact (List.take_sublist _ _).nodup hsortnd
    have hselsub : sel ⊆ ids fl := by
      intro a ha
      rw [hsel, List.map_take] at ha
      have := List.take_sublist toRemove ((stableSort lt fl).map (·.id))
      have hmem : a ∈ (stableSort lt fl).map (·.id) := this.subset ha
      have hperm : ((stableSort lt fl).map (·.id)).Perm (fl.map (·.id)) :=
        (stableSort_perm lt fl).map _
      exact hperm.mem_iff.mp hmem
    have hsellen : sel.length = toRemove := by
      rw [hsel, List.length_map, List.length_take, hsorted_len]
      have : toRemove ≤ fl.length := by omega
      omega
    rw [foldl_deleteMemory]
    refine ⟨?_, ?_, ?_⟩
    · rw [countType_filter_not_mem hnd hselnd hselsub, hsellen]
      omega
    · intro t' hne
      exact countType_filter_other hnd hne hselsub
    · exact nodup_ids_filter db _ hnd
  · simp only [if_neg hover]
    refine ⟨Nat.le_of_not_lt hover, ?_, hnd⟩
    intro t' hne
    trivial

theorem enforceMemoryLimits_spec (db : List (Mem ℚ)) (config : MemoryConfig)
    (hnd : (ids db).Nodup) :
    countType (enforceMemoryLimits db config).1 MemType.short_term ≤
      config.maxShortTermMemories ∧
    countType (enforceMemoryLimits db config).1 MemType.long_term ≤
      config.maxLongTermMemories ∧
    (ids (enforceMemoryLimits db config).1).Nodup := by
  unfold enforceMemoryLimits
  have h1 := enforceLimitFor_spec db MemType.short_term ltShortPriority
    config.maxShortTermMemories hnd
  set db1 := (enforceLimitFor db MemType.short_term ltShortPriority
    config.maxShortTermMemories).1 with hdb1
  have h2 := enforceLimitFor_spec db1 MemType.long_term ltLongPriority
    config.maxLongTermMemories h1.2.2
  refine ⟨?_, h2.1, h2.2.2⟩
  rw [h2.2.1 MemType.short_term (by intro h; cases h)]
  exact h1.1

theorem ids_map_of_preserve {α : Type} (db : List (Mem α)) (f : Mem α → Mem α)
    (h : ∀ m, (f m).id = m.id) : ids (db.map f) = ids db := by
  unfold ids
  rw [List.map_map]
  exact List.map_congr_left (fun m _ => h m)

theorem countType_map_of_preserve {α : Type} (db : List (Mem α))
    (f : Mem α → Mem α) (h : ∀ m, (f m).type = m.type) (t : MemType) :
    countType (db.map f) t = countType db t := by
  unfold countType
  rw [← map_filter_comm f (fun m => decide (m.type = t)) db, List.length_map]
  congr 1
  apply List.filter_congr
  intro m _
  rw [h m]

theorem ids_promoteMemory (db : List (Mem ℚ)) (i : Nat) :
    ids (promoteMemory db i) = ids db := by
  apply ids_map_of_preserve
  intro m
  by_cases h : m.id = i <;> simp [h]

theorem ids_updateSalience (db : List (Mem ℚ)) (i : Nat) (s : ℚ) :
    ids (updateSalience db i s) = ids db := by
  apply ids_map_of_preserve
  intro m
  by_cases h : m.id = i <;> simp [h]

theorem ids_foldl_promote (l : List Nat) (db : List (Mem ℚ)) :
    ids (l.foldl promoteMemory db) = ids db := by
  induction l generalizing db with
  | nil => rfl
  | cons i rest ih => rw [List.foldl_cons, ih, ids_promoteMemory]

theorem ids_foldl_update (us : List (Nat × ℚ)) (toDelete : List Nat)
    (db : List (Mem ℚ)) :
    ids (us.foldl
      (fun acc u => if u.1 ∈ toDelete then acc
                    else updateSalience acc u.1 u.2) db) = ids db := by
  induction us generalizing db with
  | nil => rfl
  | cons u rest ih =>
    rw [List.foldl_cons]
    by_cases h : u.1 ∈ toDelete
    · rw [if_pos h, ih]
    · rw [if_neg h, ih, ids_updateSalience]

theorem ids_updateDecayScores (score : Mem ℚ → ℚ) (db : List (Mem ℚ)) :
    ids (updateDecayScores score db) = ids db := by
  unfold updateDecayScores
  exact ids_map_of_preserve db
    (fun m => { m with decayed_score := score m }) (fun _ => rfl)

theorem countType_updateDecayScores (score : Mem ℚ → ℚ) (db : List (Mem ℚ))
    (t : MemType) : countType (updateDecayScores score db) t = countType db t := by
  unfold updateDecayScores
  exact countType_map_of_preserve db
    (fun m => { m with decayed_score := score m }) (fun _ => rfl) t

theorem evolveStep_preserve {α : Type} [LinearOrderedField α]
    (log2 : Nat → α) (links : List MemLink) (acc : List (Mem α) × Nat)
    (hub : Mem α) :
    ids (evolveStep log2 links acc hub).1 = ids acc.1 ∧
    (∀ t, countType (evolveStep log2 links acc hub).1 t = countType acc.1 t) := by
  unfold evolveStep
  by_cases h1 : linkCount links hub.id < 2
  · rw [if_pos h1]
    exact ⟨rfl, fun _ => rfl⟩
  · rw [if_neg h1]
    set ns := min (1 : α)
      (hub.salience + min (1/10 : α) (log2 (linkCount links hub.id) * (3/100)))
      with hns
    by_cases h2 : hub.salience < ns
    · rw [if_pos h2]
      constructor
      · apply ids_map_of_preserve
        intro m
        by_cases h : m.id = hub.id <;> simp [h]
      · intro t
        apply countType_map_of_preserve
        intro m
        by_cases h : m.id = hub.id <;> simp [h]
    · rw [if_neg h2]
      exact ⟨rfl, fun _ => rfl⟩

theorem evolveSalience_foldl_preserve {α : Type} [LinearOrderedField α]
    (log2 : Nat → α) (links : List MemLink) (hs : List (Mem α))
    (acc : List (Mem α) × Nat) :
    ids ((hs.foldl (evolveStep log2 links) acc).1) = ids acc.1 ∧
    (∀ t, countType ((hs.foldl (evolveStep log2 links) acc).1) t =
      countType acc.1 t) := by
  induction hs generalizing acc with
  | nil => exact ⟨rfl, fun _ => rfl⟩
  | cons hub rest ih =>
    rw [List.foldl_cons]
    rcases ih (evolveStep log2 links acc hub) with ⟨hids, hcnt⟩
    rcases evolveStep_preserve log2 links acc hub with ⟨hids2, hcnt2⟩
    exact ⟨hids.trans hids2, fun t => (hcnt t).trans (hcnt2 t)⟩

theorem evolveSalience_preserve {α : Type} [LinearOrderedField α]
    (log2 : Nat → α) (db : List (Mem α)) (links : List MemLink) :
    ids (evolveSalience log2 db links).1 = ids db ∧
    (∀ t, countType (evolveSalience log2 db links).1 t = countType db t) := by
  unfold evolveSalience
  exact evolveSalience_foldl_preserve log2 links _ (db, 0)

/-- Claim C1: after any `consolidate()` run, the number of short-term
memories is at most `maxShortTermMemories` and the number of long-term
memories is at most `maxLongTermMemories`, for every starting table
with distinct row ids, every configuration, and every decay-scoring
function. -/
theorem claim_C1_consolidate_respects_limits (score : Mem ℚ → ℚ)
    (log2 : Nat → ℚ) (db : List (Mem ℚ)) (links : List MemLink)
    (config : MemoryConfig) (hnd : (ids db).Nodup) :
    countType (consolidate score log2 db links config).db MemType.short_term ≤
      config.maxShortTermMemories ∧
    countType (consolidate score log2 db links config).db MemType.long_term ≤
      config.maxLongTermMemories := by
  unfold consolidate consolidateRun
  simp only
  set d := processDecay
    (getMemoriesByType db MemType.short_term (config.maxShortTermMemories * 2))
    config score with hd
  set db1 := d.toPromote.foldl promoteMemory db with hdb1
  set step3 := d.toDelete.filter (fun i => decide (i ∉ d.toPromote)) with hstep3
  set db2 := step3.foldl deleteMemory db1 with hdb2
  set db3 := d.updated.foldl
    (fun acc u => if u.1 ∈ d.toDelete then acc
                  else updateSalience acc u.1 u.2) db2 with hdb3
  have hnd1 : (ids db1).Nodup := by rw [hdb1, ids_foldl_promote]; exact hnd
  have hnd2 : (ids db2).Nodup := by
    rw [hdb2, foldl_deleteMemory]
    exact nodup_ids_filter db1 _ hnd1
  have hnd3 : (ids db3).Nodup := by rw [hdb3, ids_foldl_update]; exact hnd2
  have henf := enforceMemoryLimits_spec db3 config hnd3
  set enf := enforceMemoryLimits db3 config with henfdef
  have hev := evolveSalience_preserve log2 (updateDecayScores score enf.1) links
  constructor
  · rw [hev.2 MemType.short_term, countType_updateDecayScores]
    exact henf.1
  · rw [hev.2 MemType.long_term, countType_updateDecayScores]
    exact henf.2.1

/-- Witness for C1: a concrete three-row table with distinct ids and
caps of one short-term and one long-term memory. -/
theorem claim_C1_witness :
    (ids exDbC1).Nodup ∧
    (countType (consolidate (fun m => m.salience) (fun _ => 0)
        exDbC1 [] exCfgC1).db MemType.short_term ≤ 1 ∧
     countType (consolidate (fun m => m.salience) (fun _ => 0)
        exDbC1 [] exCfgC1).db MemType.long_term ≤ 1) :=
  ⟨by decide,
    claim_C1_consolidate_respects_limits (fun m => m.salience) (fun _ => 0)
      exDbC1 [] exCfgC1 (by decide)⟩

/-- Claim C8: the Jaccard similarity functions satisfy
`jaccard(∅, ∅) = 1`; `jaccard(X, ∅) = 0` for non-empty `X`;
`jaccard(A, A) = 1` for non-empty `A`; symmetry; and boundedness in
`[0, 1]`. -/
theorem claim_C8_jaccard_properties :
    jaccardFromSets ∅ ∅ = 1 ∧
    (∀ X : Finset String, X ≠ ∅ → jaccardFromSets X ∅ = 0) ∧
    (∀ A : Finset String, A ≠ ∅ → jaccardFromSets A A = 1) ∧
    (∀ A B : Finset String, jaccardFromSets A B = jaccardFromSets B A) ∧
    (∀ A B : Finset String,
      0 ≤ jaccardFromSets A B ∧ jaccardFromSets A B ≤ 1) := by
  refine ⟨by simp [jaccardFromSets], ?_, ?_, jaccardFromSets_comm, ?_⟩
  · intro X hX
    have hc : X.card ≠ 0 := by
      simpa [Finset.card_eq_zero] using hX
    simp [jaccardFromSets, hc]
  · intro A _
    exact jaccardFromSets_self A
  · intro A B
    exact ⟨jaccardFromSets_nonneg A B, jaccardFromSets_le_one A B⟩

/-- Witness for C8 at the concrete one-token set `{"abc"}`. -/
theorem claim_C8_witness :
    ({"abc"} : Finset String) ≠ ∅ ∧
    jaccardFromSets {"abc"} ∅ = 0 ∧ jaccardFromSets {"abc"} {"abc"} = 1 :=
  ⟨by decide, claim_C8_jaccard_properties.2.1 {"abc"} (by decide),
    claim_C8_jaccard_properties.2.2.1 {"abc"} (by decide)⟩

/-- Claim C9: in a single consolidation pass, the ids deleted by the
decayed-deletion step are disjoint from the ids promoted in the same
pass — for every table, configuration and scoring function. -/
theorem claim_C9_promoted_never_deleted (score : Mem ℚ → ℚ) (log2 : Nat → ℚ)
    (db : List (Mem ℚ)) (links : List MemLink) (config : MemoryConfig) :
    ((consolidate score log2 db links config).step3DeletedIds).Disjoint
      ((consolidate score log2 db links config).promotedIds) := by
  intro a ha hmem
  unfold consolidate consolidateRun at ha
  simp only at ha
  rcases List.mem_filter.mp ha with ⟨_, hdec⟩
  unfold consolidate consolidateRun at hmem
  simp only at hmem
  exact (of_decide_eq_true hdec) hmem

/-- Counterexample to claim C4: an episodic memory is not among the
memories whose decayed scores step 1 of `consolidate()` recomputes
(`consolidate()` fetches only short-term rows for `processDecay`). -/
theorem claim_C4_counterexample :
    ¬ (∀ m ∈ exDbC4,
        (m.type = MemType.short_term ∨ m.type = MemType.episodic) →
          m ∈ step1Memories exDbC4 exCfgC4) := by
  intro h
  have h1 := h epMemC4 (by simp [exDbC4]) (Or.inr rfl)
  simp [step1Memories, getMemoriesByType, exDbC4, epMemC4] at h1

/-- Claim C4 amended: step 1 of `consolidate()` recomputes decayed
scores only for short-term memories (at most `2 * maxShortTermMemories`
of them); episodic memories are only included in the preview
(`previewConsolidation`), whose input is the short-term selection
followed by up to 100 episodic rows. -/
theorem claim_C4_amended_step1_short_only (db : List (Mem ℚ))
    (config : MemoryConfig) :
    (∀ m ∈ step1Memories db config, m.type = MemType.short_term) ∧
    previewInputMemories db config =
      step1Memories db config ++ getMemoriesByType db MemType.episodic 100 := by
  constructor
  · intro m hm
    have h1 : m ∈ db.filter (fun m => decide (m.type = MemType.short_term)) :=
      (List.take_sublist _ _).subset hm
    exact of_decide_eq_true (List.mem_filter.mp h1).2
  · rfl

/-- Witness for the amended C4: a concrete short-term row is in the
step-1 selection, and the theorem yields its type. -/
theorem claim_C4_witness :
    stMemC4 ∈ step1Memories [stMemC4] exCfgC4 ∧
    stMemC4.type = MemType.short_term :=
  ⟨by simp [step1Memories, getMemoriesByType, stMemC4, exCfgC4],
    (claim_C4_amended_step1_short_only [stMemC4] exCfgC4).1 stMemC4
      (by simp [step1Memories, getMemoriesByType, stMemC4, exCfgC4])⟩

theorem not_all_three_ne {a b c : Prop} [Decidable a] [Decidable b] [Decidable c] :
    ¬(¬a ∧ ¬b ∧ ¬c) ↔ a ∨ b ∨ c := by tauto

theorem checkOpt_eq_nil {β : Type} (o : Option β) (bad : β → Bool)
    (msg : String) :
    checkOpt o bad msg = [] ↔ ∀ v, o = some v → bad v = false := by
  cases o with
  | none => simp [checkOpt]
  | some v =>
    by_cases h : bad v <;> simp [checkOpt, h]

/-- Claim C10: `loadHookConfig` returns the complete built-in default
configuration when the file is missing, when its JSON is unparseable,
and when the parsed configuration has any validation error (discarding
every user-supplied value); only a configuration with no validation
errors is deep-merged over the defaults.  The last conjunct
characterizes validity: no errors exactly when every supplied value is
in range. -/
theorem claim_C10_loadHookConfig_resilience :
    loadHookConfig ConfigSource.missing = DEFAULT_HOOK_CONFIG ∧
    loadHookConfig ConfigSource.invalidJson = DEFAULT_HOOK_CONFIG ∧
    (∀ u, validateConfig u ≠ [] →
      loadHookConfig (ConfigSource.parsed u) = DEFAULT_HOOK_CONFIG) ∧
    (∀ u, validateConfig u = [] →
      loadHookConfig (ConfigSource.parsed u) = deepMerge DEFAULT_HOOK_CONFIG u) ∧
    (∀ pc ss, validateConfig ⟨some pc, some ss⟩ = [] ↔
      ((∀ v, pc.minSalience = some v → 0 ≤ v ∧ v ≤ 1) ∧
       (∀ v, pc.maxMemoriesPerCompact = some v → 0 ≤ v) ∧
       (∀ v, pc.timeout = some v → 0 ≤ v ∧ v ≤ 30000) ∧
       (∀ v, ss.minSalience = some v → 0 ≤ v ∧ v ≤ 1) ∧
       (∀ v, ss.maxMemories = some v → 0 ≤ v) ∧
       (∀ v, ss.timeout = some v → 0 ≤ v ∧ v ≤ 30000) ∧
       (∀ v, ss.format = some v →
         v = "summary" ∨ v = "detailed" ∨ v = "minimal"))) := by
  refine ⟨rfl, rfl, ?_, ?_, ?_⟩
  · intro u hu
    simp [loadHookConfig, hu]
  · intro u hu
    simp [loadHookConfig, hu]
  · intro pc ss
    simp only [validateConfig, List.append_eq_nil, checkOpt_eq_nil,
      decide_eq_false_iff_not, not_or, not_lt, not_not, not_all_three_ne,
      and_assoc]

/-- Witness for C10: the configuration with `minSalience = 2` has a
validation error, so `loadHookConfig` discards it entirely, including
its valid `enabled`, `maxMemoriesPerCompact` and `timeout` values. -/
theorem claim_C10_witness :
    validateConfig badUserConfigC10 ≠ [] ∧
    loadHookConfig (ConfigSource.parsed badUserConfigC10) = DEFAULT_HOOK_CONFIG := by
  have hval : validateConfig badUserConfigC10 ≠ [] := by
    simp only [validateConfig, badUserConfigC10, checkOpt]
    norm_num
  exact ⟨hval, claim_C10_loadHookConfig_resilience.2.2.1 badUserConfigC10 hval⟩

/-! ## Row-level analysis of salience evolution (claim C5) -/
theorem findRow_eq_some_id {α : Type} {db : List (Mem α)} {i : Nat}
    {m : Mem α} (h : findRow db i = some m) : m.id = i := by
  have := List.find?_some h
  exact of_decide_eq_true this

theorem findRow_of_mem_nodup {α : Type} {db : List (Mem α)}
    (hnd : (ids db).Nodup) {m : Mem α} (hm : m ∈ db) :
    findRow db m.id = some m := by
  induction db with
  | nil => cases hm
  | cons a t ih =>
    rcases List.mem_cons.mp hm with rfl | hmt
    · unfold findRow
      rw [List.find?_cons]
      simp
    · unfold findRow
      rw [List.find?_cons]
      have hne : a.id ≠ m.id := by
        intro he
        have : m.id ∈ ids t := List.mem_map.mpr ⟨m, hmt, rfl⟩
        rw [← he] at this
        exact (List.nodup_cons.mp hnd).1 this
      have : decide (a.id = m.id) = false := decide_eq_false hne
      rw [this]
      exact ih (List.nodup_cons.mp hnd).2 hmt

theorem findRow_map {α : Type} (db : List (Mem α)) (f : Mem α → Mem α)
    (hid : ∀ m, (f m).id = m.id) (i : Nat) :
    findRow (db.map f) i = (findRow db i).map f := by
  induction db with
  | nil => rfl
  | cons a t ih =>
    unfold findRow at ih ⊢
    rw [List.map_cons, List.find?_cons, List.find?_cons, hid a]
    by_cases h : a.id = i
    · have : decide (a.id = i) = true := decide_eq_true h
      rw [this]
      rfl
    · have : decide (a.id = i) = false := decide_eq_false h
      rw [this]
      exact ih

/-- `{ m with salience := m.salience }` is `m` itself. -/
theorem mem_eta_salience {α : Type} (m : Mem α) :
    ({ m with salience := m.salience } : Mem α) = m := rfl

theorem evolveStep_findRow_other {α : Type} [LinearOrderedField α]
    (log2 : Nat → α) (links : List MemLink) (acc : List (Mem α) × Nat)
    (hub : Mem α) (i : Nat) (hne : hub.id ≠ i) :
    findRow (evolveStep log2 links acc hub).1 i = findRow acc.1 i := by
  unfold evolveStep
  by_cases h1 : linkCount links hub.id < 2
  · rw [if_pos h1]
  · rw [if_neg h1]
    set ns := min (1 : α)
      (hub.salience + min (1/10 : α) (log2 (linkCount links hub.id) * (3/100)))
      with hns
    by_cases h2 : hub.salience < ns
    · rw [if_pos h2]
      simp only
      rw [findRow_map]
      · rcases hrow : findRow acc.1 i with _ | r
        · rfl
        · have hrid : r.id = i := findRow_eq_some_id hrow
          have : ¬ r.id = hub.id := by rw [hrid]; exact fun h => hne h.symm
          simp [Option.map, if_neg this]
      · intro m
        by_cases h : m.id = hub.id <;> simp [h]
    · rw [if_neg h2]

theorem evolveSalience_foldl_other {α : Type} [LinearOrderedField α]
    (log2 : Nat → α) (links : List MemLink) (hs : List (Mem α))
    (acc : List (Mem α) × Nat) (i : Nat) (h : ∀ hub ∈ hs, hub.id ≠ i) :
    findRow ((hs.foldl (evolveStep log2 links) acc).1) i = findRow acc.1 i := by
  induction hs generalizing acc with
  | nil => rfl
  | cons hub rest ih =>
    rw [List.foldl_cons]
    rw [ih (evolveStep log2 links acc hub)
      (fun x hx => h x (List.mem_cons_of_mem hub hx))]
    exact evolveStep_findRow_other log2 links acc hub i
      (h hub (List.mem_cons_self hub rest))

theorem evolveStep_findRow_self {α : Type} [LinearOrderedField α]
    (log2 : Nat → α) (links : List MemLink) (acc : List (Mem α) × Nat)
    (hub : Mem α) (hlc : 2 ≤ linkCount links hub.id)
    (hsal : hub.salience ≤ 1) (hlog : 0 ≤ log2 (linkCount links hub.id))
    (hrow : findRow acc.1 hub.id = some hub) :
    findRow (evolveStep log2 links acc hub).1 hub.id =
      some { hub with salience := boostedSalience log2 links hub } := by
  unfold evolveStep boostedSalience
  rw [if_neg (by omega)]
  set bonus := min (1/10 : α) (log2 (linkCount links hub.id) * (3/100)) with hbonus
  set ns := min (1 : α) (hub.salience + bonus) with hns
  have hbnn : 0 ≤ bonus := by
    rw [hbonus]
    apply le_min
    · norm_num
    · positivity
  have hle : hub.salience ≤ ns := by
    rw [hns]
    exact le_min hsal (by linarith)
  by_cases h2 : hub.salience < ns
  · rw [if_pos h2]
    simp only
    rw [findRow_map _ _ (fun m => by by_cases h : m.id = hub.id <;> simp [h]),
      hrow]
    simp [Option.map]
  · rw [if_neg h2]
    have heq : ns = hub.salience := le_antisymm (not_lt.mp h2) hle
    rw [hrow]
    congr 1
    conv_lhs => rw [← mem_eta_salience hub]
    rw [← heq]

theorem evolveSalience_findRow_spec {α : Type} [LinearOrderedField α]
    (log2 : Nat → α) (db : List (Mem α)) (links : List MemLink)
    (hnd : (ids db).Nodup) (m : Mem α) (hm : m ∈ db) :
    ((m.type = MemType.long_term ∨ m.type = MemType.episodic) →
      2 ≤ linkCount links m.id → m.salience ≤ 1 →
      0 ≤ log2 (linkCount links m.id) →
      findRow (evolveSalience log2 db links).1 m.id =
        some { m with salience := boostedSalience log2 links m }) ∧
    ((m.type = MemType.short_term ∨ linkCount links m.id < 2) →
      findRow (evolveSalience log2 db links).1 m.id = some m) := by
  unfold evolveSalience
  simp only
  set hubs := db.filter
    (fun m => decide (m.type = MemType.long_term ∨ m.type = MemType.episodic))
    with hhubs
  have hhubnd : (ids hubs).Nodup := nodup_ids_filter db _ hnd
  have hrow0 : findRow db m.id = some m := findRow_of_mem_nodup hnd hm
  have hother : ∀ hub ∈ hubs, hub.id ≠ m.id → True := fun _ _ _ => trivial
  constructor
  · intro htype hlc hsal hlog
    have hmem : m ∈ hubs := by
      rw [hhubs]
      exact List.mem_filter.mpr ⟨hm, decide_eq_true htype⟩
    rcases List.append_of_mem hmem with ⟨l₁, l₂, hsplit⟩
    have hids : ids hubs = ids l₁ ++ m.id :: ids l₂ := by
      rw [hsplit]
      unfold ids
      rw [List.map_append, List.map_cons]
    rw [hids] at hhubnd
    have hnotl₁ : ∀ hub ∈ l₁, hub.id ≠ m.id := by
      intro hub hhub he
      rcases List.nodup_append.mp hhubnd with ⟨_, _, hdisj⟩
      exact hdisj (List.mem_map.mpr ⟨hub, hhub, he⟩) (List.mem_cons_self _ _)
    have hnotl₂ : ∀ hub ∈ l₂, hub.id ≠ m.id := by
      intro hub hhub he
      rcases List.nodup_append.mp hhubnd with ⟨_, hcons, _⟩
      exact (List.nodup_cons.mp hcons).1 (List.mem_map.mpr ⟨hub, hhub, he⟩)
    rw [hsplit, List.foldl_append, List.foldl_cons]
    rw [evolveSalience_foldl_other log2 links l₂ _ m.id hnotl₂]
    have hacc1 : findRow ((l₁.foldl (evolveStep log2 links) (db, 0)).1) m.id =
        some m := by
      rw [evolveSalience_foldl_other log2 links l₁ (db, 0) m.id
        (fun hub hh he => hnotl₁ hub hh he)]
      exact hrow0
    exact evolveStep_findRow_self log2 links _ m hlc hsal hlog hacc1
  · intro hcase
    by_cases hmem : m ∈ hubs
    · rcases hcase with hshort | hlc
      · exfalso
        have := (List.mem_filter.mp hmem).2
        rcases of_decide_eq_true this with h | h <;> rw [hshort] at h <;> cases h
      · rcases List.append_of_mem hmem with ⟨l₁, l₂, hsplit⟩
        have hids : ids hubs = ids l₁ ++ m.id :: ids l₂ := by
          rw [hsplit]
          unfold ids
          rw [List.map_append, List.map_cons]
        rw [hids] at hhubnd
        have hnotl₁ : ∀ hub ∈ l₁, hub.id ≠ m.id := by
          intro hub hhub he
          rcases List.nodup_append.mp hhubnd with ⟨_, _, hdisj⟩
          exact hdisj (List.mem_map.mpr ⟨hub, hhub, he⟩) (List.mem_cons_self _ _)
        have hnotl₂ : ∀ hub ∈ l₂, hub.id ≠ m.id := by
          intro hub hhub he
          rcases List.nodup_append.mp hhubnd with ⟨_, hcons, _⟩
          exact (List.nodup_cons.mp hcons).1
            (List.mem_map.mpr ⟨hub, hhub, he⟩)
        rw [hsplit, List.foldl_append, List.foldl_cons]
        rw [evolveSalience_foldl_other log2 links l₂ _ m.id hnotl₂]
        have hstep : findRow (evolveStep log2 links
            (l₁.foldl (evolveStep log2 links) (db, 0)) m).1 m.id =
            findRow ((l₁.foldl (evolveStep log2 links) (db, 0)).1) m.id := by
          unfold evolveStep
          rw [if_pos hlc]
        rw [hstep, evolveSalience_foldl_other log2 links l₁ (db, 0) m.id hnotl₁]
        exact hrow0
    · have hall : ∀ hub ∈ hubs, hub.id ≠ m.id := by
        intro hub hhub he
        have hhubdb : hub ∈ db := (List.mem_filter.mp hhub).1
        have : hub = m := mem_of_same_id hnd hhubdb hm he
        rw [this] at hhub
        exact hmem hhub
      rw [evolveSalience_foldl_other log2 links hubs (db, 0) m.id hall]
      exact hrow0

/-- Claim C5 amended: during consolidation's salience-evolution step,
a long-term or episodic memory with at least 2 links has its salience
set to `min(1, salience + min(0.1, log2(link_count) * 0.03))`; a
short-term memory, or any memory with fewer than 2 links, is unchanged
by this step.  (The claim as stated, covering memories of every type,
fails: `evolveSalience` selects only long-term and episodic rows.) -/
theorem claim_C5_amended_evolveSalience (db : List (Mem ℝ))
    (links : List MemLink) (hnd : (ids db).Nodup) (m : Mem ℝ) (hm : m ∈ db) :
    ((m.type = MemType.long_term ∨ m.type = MemType.episodic) →
      2 ≤ linkCount links m.id → m.salience ≤ 1 →
      findRow (evolveSalience (fun n => Real.logb 2 n) db links).1 m.id =
        some { m with salience :=
            boostedSalience (fun n => Real.logb 2 n) links m }) ∧
    ((m.type = MemType.short_term ∨ linkCount links m.id < 2) →
      findRow (evolveSalience (fun n => Real.logb 2 n) db links).1 m.id =
        some m) := by
  have hspec := evolveSalience_findRow_spec (fun n => Real.logb 2 n)
    db links hnd m hm
  refine ⟨fun ht hlc hsal => ?_, hspec.2⟩
  apply hspec.1 ht hlc hsal
  apply Real.logb_nonneg (by norm_num)
  have : (2 : ℝ) ≤ (linkCount links m.id : ℝ) := by exact_mod_cast hlc
  linarith

/-- Counterexample to claim C5 as stated: a short-term memory with
exactly 2 links is left untouched by `evolveSalience`, although the
claimed formula prescribes a strictly larger salience
(`0.5 + min(0.1, log2(2) * 0.03) = 0.53`). -/
theorem claim_C5_counterexample :
    linkCount exLinksC5 exMemC5.id = 2 ∧
    (evolveSalience (fun n => Real.logb 2 n) [exMemC5] exLinksC5).1 =
      [exMemC5] ∧
    exMemC5.salience ≠
      boostedSalience (fun n => Real.logb 2 n) exLinksC5 exMemC5 := by
  refine ⟨by decide, rfl, ?_⟩
  unfold boostedSalience
  have h2 : linkCount exLinksC5 exMemC5.id = 2 := by decide
  rw [h2]
  show exMemC5.salience ≠
    min 1 (exMemC5.salience + min (1/10) (Real.logb 2 ((2 : Nat) : ℝ) * (3/100)))
  have hlog : Real.logb 2 ((2 : Nat) : ℝ) = 1 := by
    push_cast
    exact Real.logb_self_eq_one (by norm_num)
  rw [hlog]
  show (1/2 : ℝ) ≠ min 1 (1/2 + min (1/10) (1 * (3/100)))
  rw [show min (1/10 : ℝ) (1 * (3/100)) = 3/100 by
    rw [min_eq_right] <;> norm_num]
  rw [min_eq_right (by norm_num)]
  norm_num

/-- Witness for the amended C5 at a concrete long-term memory with two
links. -/
theorem claim_C5_witness :
    findRow (evolveSalience (fun n => Real.logb 2 n) [wMemC5] exLinksC5).1
        wMemC5.id =
      some { wMemC5 with salience :=
          boostedSalience (fun n => Real.logb 2 n) exLinksC5 wMemC5 } :=
  (claim_C5_amended_evolveSalience [wMemC5] exLinksC5 (by decide) wMemC5
      (List.mem_singleton.mpr rfl)).1
    (Or.inl rfl) (by decide) (by norm_num [wMemC5])

/-! ## A two-row merge, in closed form (used by several claims) -/
theorem stringIntercalateSingle (s a : String) :
    String.intercalate s [a] = a := rfl

/-- On a table of two similar short-term rows of the same group (the
first one not later and not less salient), `mergeSimilarMemories`
deletes the second row and replaces the first by `mergedPair m1 m2`. -/
theorem mergeSimilar_pair (m1 m2 : Mem ℚ) (thr : ℚ)
    (h1 : m1.type = MemType.short_term) (h2 : m2.type = MemType.short_term)
    (hk : memKey m1 = memKey m2)
    (hco : ¬ (m2.created_at < m1.created_at))
    (hsim : thr ≤ combinedSim [m1, m2] 0 1)
    (hsal : ¬ (m1.salience < m2.salience))
    (hid : m1.id ≠ m2.id) :
    mergeSimilarMemories [m1, m2] none thr =
      ⟨[mergedPair m1 m2], 1, 1⟩ := by
  have hmems : mergeSelection [m1, m2] none = [m1, m2] := by
    unfold mergeSelection
    simp [h1, h2, stableSort, stableInsert, hco]
  have hgroups : groupsOf [m1, m2] = [[m1, m2]] := by
    simp [groupsOf, memKey] at hk ⊢
    simp [firstDedup, firstDedupAux, hk]
  have hsim' : decide (thr ≤ combinedSim [m1, m2] 0 1) = true := decide_eq_true hsim
  have hclust : greedyClusters (combinedSim [m1, m2]) thr 2 = [[0, 1]] := by
    simp [greedyClusters, buildCluster, List.range_succ, hsim']
  have hsort : stableSort clusterLt [m1, m2] = [m1, m2] := by
    simp [stableSort, stableInsert, clusterLt, hsal]
  have hmc : mergeCluster [m1, m2] = (mergedPair m1 m2, [m2.id]) := by
    simp [mergeCluster, hsort, mergedPair, stringIntercalateSingle,
      firstDedup]
  have hpg : processGroup thr [m1, m2] = [(mergedPair m1 m2, [m2.id])] := by
    simp [processGroup, hclust, hmc]
  have hplans : mergePlans [m1, m2] none thr = [(mergedPair m1 m2, [m2.id])] := by
    unfold mergePlans
    rw [hmems, hgroups]
    simp only [List.flatMap_cons, List.flatMap_nil, List.append_nil, hpg]
  unfold mergeSimilarMemories
  simp only [hplans, List.flatMap_cons, List.flatMap_nil, List.append_nil,
    List.map_cons, List.map_nil]
  simp [hid, List.contains, mergedPair]

/-! ## Consolidation as the identity (for concrete runs where nothing
decays, promotes, or overflows) -/
theorem foldl_update_id (score : Mem ℚ → ℚ) (db : List (Mem ℚ))
    (toDelete : List Nat) (hnd : (ids db).Nodup)
    (hsal : ∀ m ∈ db, score m = m.salience) (us : List (Nat × ℚ))
    (hus : ∀ u ∈ us, ∃ m ∈ db, u = (m.id, score m)) :
    us.foldl
      (fun acc u => if u.1 ∈ toDelete then acc
                    else updateSalience acc u.1 u.2) db = db := by
  induction us with
  | nil => rfl
  | cons u rest ih =>
    rw [List.foldl_cons]
    have hstep : (if u.1 ∈ toDelete then db else updateSalience db u.1 u.2) = db := by
      by_cases h : u.1 ∈ toDelete
      · rw [if_pos h]
      · rw [if_neg h]
        rcases hus u (List.mem_cons_self u rest) with ⟨m, hm, rfl⟩
        unfold updateSalience
        have : ∀ r ∈ db, (if r.id = m.id then { r with salience := score m }
            else r) = r := by
          intro r hr
          by_cases hrid : r.id = m.id
          · rw [if_pos hrid]
            have : r = m := mem_of_same_id hnd hr hm hrid
            subst this
            rw [hsal r hr]
          · rw [if_neg hrid]
        rw [List.map_congr_left this, List.map_id']
    rw [hstep]
    exact ih (fun u hu => hus u (List.mem_cons_of_mem _ hu))

/-- When every row is short-term, none decays below threshold, none is
promotion-eligible, the scores match the stored columns, and the table
fits in the short-term cap, `consolidate()` returns the table
unchanged. -/
theorem consolidate_fix (score : Mem ℚ → ℚ) (log2 : Nat → ℚ)
    (db : List (Mem ℚ)) (config : MemoryConfig)
    (hnd : (ids db).Nodup)
    (hall : ∀ m ∈ db, m.type = MemType.short_term)
    (hlen : db.length ≤ config.maxShortTermMemories)
    (hnodel : ∀ m ∈ db, ¬ (score m < categoryThreshold m.category))
    (hnopromo : ∀ m ∈ db,
      ¬ (config.salienceThreshold ≤ m.salience ∧ 1 ≤ m.access_count))
    (hsal : ∀ m ∈ db, score m = m.salience)
    (hds : ∀ m ∈ db, score m = m.decayed_score) :
    (consolidate score log2 db [] config).db = db := by
  have hfilter : db.filter (fun m => decide (m.type = MemType.short_term)) = db :=
    List.filter_eq_self.mpr (fun m hm => decide_eq_true (hall m hm))
  have hshort : getMemoriesByType db MemType.short_term
      (config.maxShortTermMemories * 2) = db := by
    unfold getMemoriesByType
    rw [hfilter]
    exact List.take_of_length_le (by omega)
  have hdel : db.filter
      (fun m => decide (score m < categoryThreshold m.category)) = [] :=
    List.filter_eq_nil_iff.mpr
      (fun m hm => by simp only [decide_eq_true_eq]; exact hnodel m hm)
  have hpromo : db.filter (fun m =>
      decide (config.salienceThreshold ≤ m.salience ∧ 1 ≤ m.access_count)) = [] :=
    List.filter_eq_nil_iff.mpr
      (fun m hm => by simp only [decide_eq_true_eq]; exact hnopromo m hm)
  unfold consolidate consolidateRun
  simp only [hshort]
  unfold processDecay
  simp only [hdel, hpromo, List.map_nil, List.filter_nil, List.foldl_nil]
  rw [foldl_update_id score db [] hnd hsal _
    (fun u hu => by
      rcases List.mem_map.mp hu with ⟨m, hm, rfl⟩
      exact ⟨m, hm, rfl⟩)]
  have hcount_short : countType db MemType.short_term = db.length := by
    unfold countType
    rw [hfilter]
  have hcount_long : countType db MemType.long_term = 0 := by
    unfold countType
    rw [List.filter_eq_nil_iff.mpr (fun m hm => by
      simp only [decide_eq_true_eq]
      rw [hall m hm]
      intro h
      cases h)]
    rfl
  have henf1 : enforceLimitFor db MemType.short_term ltShortPriority
      config.maxShortTermMemories = (db, 0) := by
    simp only [enforceLimitFor]
    rw [if_neg (by rw [hcount_short]; omega)]
  have henf2 : enforceLimitFor db MemType.long_term ltLongPriority
      config.maxLongTermMemories = (db, 0) := by
    simp only [enforceLimitFor]
    rw [if_neg (by rw [hcount_long]; omega)]
  have henf : enforceMemoryLimits db config = (db, 0) := by
    simp [enforceMemoryLimits, henf1, henf2]
  rw [henf]
  have hupd : updateDecayScores score db = db := by
    unfold updateDecayScores
    rw [List.map_congr_left (fun m hm => by
      rw [hds m hm]), List.map_id']
  rw [hupd]
  have hhubs : db.filter (fun m =>
      decide (m.type = MemType.long_term ∨ m.type = MemType.episodic)) = [] :=
    List.filter_eq_nil_iff.mpr (fun m hm => by
      simp only [decide_eq_true_eq]
      rw [hall m hm]
      rintro (h | h) <;> cases h)
  unfold evolveSalience
  simp only [hhubs, List.foldl_nil]

theorem corePres_refl (db : List (Mem ℚ)) : CorePres db db :=
  fun m' hm' => ⟨m', hm', rfl⟩

theorem corePres_trans {db1 db2 db3 : List (Mem ℚ)}
    (h12 : CorePres db1 db2) (h23 : CorePres db2 db3) : CorePres db1 db3 := by
  intro m' hm'
  rcases h12 m' hm' with ⟨m2, hm2, he⟩
  rcases h23 m2 hm2 with ⟨m3, hm3, he'⟩
  exact ⟨m3, hm3, he.trans he'⟩

theorem corePres_map (db : List (Mem ℚ)) (f : Mem ℚ → Mem ℚ)
    (h : ∀ m ∈ db, rowCore (f m) = rowCore m) : CorePres (db.map f) db := by
  intro m' hm'
  rcases List.mem_map.mp hm' with ⟨m, hm, rfl⟩
  exact ⟨m, hm, h m hm⟩

theorem corePres_filter (db : List (Mem ℚ)) (p : Mem ℚ → Bool) :
    CorePres (db.filter p) db :=
  fun m' hm' => ⟨m', (List.mem_filter.mp hm').1, rfl⟩

theorem corePres_promote (db : List (Mem ℚ)) (i : Nat) :
    CorePres (promoteMemory db i) db := by
  apply corePres_map
  intro m _
  by_cases h : m.id = i <;> simp [h, rowCore]

theorem corePres_updateSalience (db : List (Mem ℚ)) (i : Nat) (s : ℚ) :
    CorePres (updateSalience db i s) db := by
  apply corePres_map
  intro m _
  by_cases h : m.id = i <;> simp [h, rowCore]

theorem corePres_foldl_promote (l : List Nat) (db : List (Mem ℚ)) :
    CorePres (l.foldl promoteMemory db) db := by
  induction l generalizing db with
  | nil => exact corePres_refl db
  | cons i rest ih =>
    exact corePres_trans (ih (promoteMemory db i)) (corePres_promote db i)

theorem corePres_foldl_delete (l : List Nat) (db : List (Mem ℚ)) :
    CorePres (l.foldl deleteMemory db) db := by
  rw [foldl_deleteMemory]
  exact corePres_filter db _

theorem corePres_foldl_update (us : List (Nat × ℚ)) (toDelete : List Nat)
    (db : List (Mem ℚ)) :
    CorePres (us.foldl
      (fun acc u => if u.1 ∈ toDelete then acc
                    else updateSalience acc u.1 u.2) db) db := by
  induction us generalizing db with
  | nil => exact corePres_refl db
  | cons u rest ih =>
    rw [List.foldl_cons]
    by_cases h : u.1 ∈ toDelete
    · rw [if_pos h]
      exact ih db
    · rw [if_neg h]
      exact corePres_trans (ih (updateSalience db u.1 u.2))
        (corePres_updateSalience db u.1 u.2)

theorem corePres_enforceLimitFor (db : List (Mem ℚ)) (t : MemType)
    (lt : Mem ℚ → Mem ℚ → Bool) (maxCount : Nat) :
    CorePres (enforceLimitFor db t lt maxCount).1 db := by
  unfold enforceLimitFor
  by_cases h : maxCount < countType db t
  · rw [if_pos h]
    exact corePres_foldl_delete _ db
  · rw [if_neg h]
    exact corePres_refl db

theorem corePres_enforce (db : List (Mem ℚ)) (config : MemoryConfig) :
    CorePres (enforceMemoryLimits db config).1 db := by
  unfold enforceMemoryLimits
  exact corePres_trans (corePres_enforceLimitFor _ _ _ _)
    (corePres_enforceLimitFor _ _ _ _)

theorem corePres_updateDecay (score : Mem ℚ → ℚ) (db : List (Mem ℚ)) :
    CorePres (updateDecayScores score db) db := by
  unfold updateDecayScores
  exact corePres_map db _ (fun m _ => rfl)

theorem corePres_evolveStep (log2 : Nat → ℚ) (links : List MemLink)
    (acc : List (Mem ℚ) × Nat) (hub : Mem ℚ) :
    CorePres (evolveStep log2 links acc hub).1 acc.1 := by
  unfold evolveStep
  by_cases h1 : linkCount links hub.id < 2
  · rw [if_pos h1]
    exact corePres_refl acc.1
  · rw [if_neg h1]
    by_cases h2 : hub.salience <
        min 1 (hub.salience + min (1/10) (log2 (linkCount links hub.id) * (3/100)))
    · rw [if_pos h2]
      apply corePres_map
      intro m _
      by_cases h : m.id = hub.id <;> simp [h, rowCore]
    · rw [if_neg h2]
      exact corePres_refl acc.1

theorem corePres_evolve (log2 : Nat → ℚ) (db : List (Mem ℚ))
    (links : List MemLink) :
    CorePres (evolveSalience log2 db links).1 db := by
  unfold evolveSalience
  simp only
  generalize db.filter
    (fun m => decide (m.type = MemType.long_term ∨ m.type = MemType.episodic)) = hubs
  suffices h : ∀ (hs : List (Mem ℚ)) (acc : List (Mem ℚ) × Nat),
      CorePres (hs.foldl (evolveStep log2 links) acc).1 acc.1 by
    exact h hubs (db, 0)
  intro hs
  induction hs with
  | nil => exact fun acc => corePres_refl acc.1
  | cons hub rest ih =>
    intro acc
    rw [List.foldl_cons]
    exact corePres_trans (ih (evolveStep log2 links acc hub))
      (corePres_evolveStep log2 links acc hub)

/-- Claim C3 amended: `consolidate()` runs in a single transaction and
returns the four counters `{ consolidated, decayed, deleted,
salienceEvolved }`, but performs no merging: every row it returns has
the identity, text, tags and statistics of a row of the input table.
Merging happens in a second transaction: `fullCleanup` runs
`consolidate()` and then `mergeSimilarMemories()` (two transactions in
total) and only its own result carries `merged`. -/
theorem consolidate_corePres (score : Mem ℚ → ℚ) (log2 : Nat → ℚ)
    (db : List (Mem ℚ)) (links : List MemLink) (config : MemoryConfig) :
    CorePres (consolidate score log2 db links config).db db := by
  unfold consolidate consolidateRun
  simp only
  set d := processDecay
    (getMemoriesByType db MemType.short_term (config.maxShortTermMemories * 2))
    config score with hd
  set db1 := d.toPromote.foldl promoteMemory db with hdb1
  set step3 := d.toDelete.filter (fun i => decide (i ∉ d.toPromote)) with hstep3
  set db2 := step3.foldl deleteMemory db1 with hdb2
  set db3 := d.updated.foldl
    (fun acc u => if u.1 ∈ d.toDelete then acc
                  else updateSalience acc u.1 u.2) db2 with hdb3
  have p1 : CorePres db1 db := corePres_foldl_promote _ _
  have p2 : CorePres db2 db1 := corePres_foldl_delete _ _
  have p3 : CorePres db3 db2 := corePres_foldl_update _ _ _
  have p4 : CorePres (enforceMemoryLimits db3 config).1 db3 := corePres_enforce _ _
  have p5 : CorePres (updateDecayScores score (enforceMemoryLimits db3 config).1)
      (enforceMemoryLimits db3 config).1 := corePres_updateDecay _ _
  have p6 : CorePres (evolveSalience log2
      (updateDecayScores score (enforceMemoryLimits db3 config).1) links).1
      (updateDecayScores score (enforceMemoryLimits db3 config).1) :=
    corePres_evolve _ _ _
  exact corePres_trans p6 (corePres_trans p5 (corePres_trans p4
    (corePres_trans p3 (corePres_trans p2 p1))))

/-- Claim C3 amended: `consolidate()` runs in a single transaction and
returns the four counters `{ consolidated, decayed, deleted,
salienceEvolved }`, but performs no merging: every row it returns has
the identity, text, tags and statistics of a row of the input table.
Merging happens in a second transaction: `fullCleanup` runs
`consolidate()` and then `mergeSimilarMemories()` (two transactions in
total) and only its own result carries `merged`. -/
theorem claim_C3_amended_consolidate_no_merge (score : Mem ℚ → ℚ)
    (log2 : Nat → ℚ) (db : List (Mem ℚ)) (links : List MemLink)
    (config : MemoryConfig) :
    (consolidate score log2 db links config).txCount = 1 ∧
    (∀ m' ∈ (consolidate score log2 db links config).db,
      ∃ m ∈ db, rowCore m' = rowCore m) ∧
    (fullCleanup score log2 db links config).txCount = 2 ∧
    (fullCleanup score log2 db links config).consolidation =
      (consolidate score log2 db links config).result ∧
    (fullCleanup score log2 db links config).merged =
      (mergeSimilarMemories (consolidate score log2 db links config).db
        none (1/4)).deleted :=
  ⟨rfl, consolidate_corePres score log2 db links config, rfl, rfl,
    by simp only [fullCleanup]⟩

theorem categoryThreshold_note : categoryThreshold "note" = 25/100 := by
  unfold categoryThreshold
  rw [if_neg (by decide), if_neg (by decide), if_pos (by decide)]

/-- Counterexample to claim C3: two mergeable short-term rows (identical
title and content, same project and category) survive `consolidate()`
completely unchanged — the single consolidation transaction performs no
merging — while `mergeSimilarMemories` does merge them (deleting one),
and a full pass that merges (`fullCleanup`) opens two transactions, not
one. -/
theorem claim_C3_counterexample :
    (consolidate (fun m => m.salience) (fun _ => 0) exDbC3 [] exCfgC3).db =
      exDbC3 ∧
    (mergeSimilarMemories exDbC3 none (1/4)).deleted = 1 ∧
    (fullCleanup (fun m => m.salience) (fun _ => 0) exDbC3 [] exCfgC3).txCount
      = 2 := by
  refine ⟨?_, ?_, rfl⟩
  · apply consolidate_fix
    · decide
    · intro m hm
      simp only [exDbC3, List.mem_cons, List.not_mem_nil, or_false] at hm
      rcases hm with rfl | rfl <;> rfl
    · simp [exDbC3, exCfgC3]
    · intro m hm
      simp only [exDbC3, List.mem_cons, List.not_mem_nil, or_false] at hm
      rcases hm with rfl | rfl <;>
        · show ¬ (1/2 : ℚ) < categoryThreshold "note"
          rw [categoryThreshold_note]
          norm_num
    · intro m hm
      simp only [exDbC3, List.mem_cons, List.not_mem_nil, or_false] at hm
      rcases hm with rfl | rfl <;> norm_num [mC3a, mC3b, exCfgC3]
    · intro m hm
      simp only [exDbC3, List.mem_cons, List.not_mem_nil, or_false] at hm
      rcases hm with rfl | rfl <;> rfl
    · intro m hm
      simp only [exDbC3, List.mem_cons, List.not_mem_nil, or_false] at hm
      rcases hm with rfl | rfl <;> rfl
  · have h := mergeSimilar_pair mC3a mC3b (1/4)
      rfl rfl rfl (by decide)
      (by
        simp [combinedSim, mC3a, mC3b, jaccardFromSets_self]
        norm_num)
      (by norm_num [mC3a, mC3b]) (by decide)
    rw [show exDbC3 = [mC3a, mC3b] from rfl, h]

/-- Witness for the amended C3 at a one-row table that `consolidate()`
returns unchanged. -/
theorem claim_C3_witness :
    mC3w ∈ (consolidate (fun m => m.salience) (fun _ => 0) [mC3w] []
      exCfgC3).db ∧
    ∃ m ∈ [mC3w], rowCore mC3w = rowCore m := by
  have hfix : (consolidate (fun m => m.salience) (fun _ => 0) [mC3w] []
      exCfgC3).db = [mC3w] := by
    apply consolidate_fix
    · decide
    · intro m hm
      simp only [List.mem_singleton] at hm
      subst hm
      rfl
    · simp [exCfgC3]
    · intro m hm
      simp only [List.mem_singleton] at hm
      subst hm
      show ¬ (1/2 : ℚ) < categoryThreshold "note"
      rw [categoryThreshold_note]
      norm_num
    · intro m hm
      simp only [List.mem_singleton] at hm
      subst hm
      norm_num [mC3w, exCfgC3]
    · intro m hm
      simp only [List.mem_singleton] at hm
      subst hm
      rfl
    · intro m hm
      simp only [List.mem_singleton] at hm
      subst hm
      rfl
  have hmem : mC3w ∈ (consolidate (fun m => m.salience) (fun _ => 0) [mC3w] []
      exCfgC3).db := by
    rw [hfix]
    exact List.mem_singleton.mpr rfl
  exact ⟨hmem,
    (claim_C3_amended_consolidate_no_merge (fun m => m.salience) (fun _ => 0)
      [mC3w] [] exCfgC3).2.1 mC3w hmem⟩

theorem bigContentC6_length : bigContentC6.length = 10240 := by
  show (List.replicate 10240 'a').length = 10240
  rw [List.length_replicate]

/-- Claim C6 fails on the code: two similar short-term rows whose
contents are exactly at the 10 KiB limit (legal at rest) are merged by
`mergeSimilarMemories` into a stored row of 20 509 bytes — more than
10 KiB — with no truncation and no marker. -/
theorem claim_C6_merge_exceeds_content_limit :
    mC6a.content.length = 10240 ∧ mC6b.content.length = 10240 ∧
    (mergeSimilarMemories [mC6a, mC6b] none (1/4)).db =
      [mergedPair mC6a mC6b] ∧
    (mergedPair mC6a mC6b).content.length = 20509 ∧
    10240 < (mergedPair mC6a mC6b).content.length := by
  have hbig : bigContentC6.length = 10240 := bigContentC6_length
  have hmerge := mergeSimilar_pair mC6a mC6b (1/4)
    rfl rfl rfl (by decide)
    (by
      simp [combinedSim, mC6a, mC6b, jaccardFromSets_self]
      norm_num)
    (by norm_num [mC6a, mC6b]) (by decide)
  have hcontent : (mergedPair mC6a mC6b).content =
      bigContentC6 ++ "\n\nConsolidated context:\n" ++
        ("- " ++ "t" ++ ": " ++ bigContentC6) := rfl
  have hA : ("\n\nConsolidated context:\n" : String).length = 24 := by decide
  have hB : ("- " : String).length = 2 := by decide
  have hC : ("t" : String).length = 1 := by decide
  have hD : (": " : String).length = 2 := by decide
  have hlen : (mergedPair mC6a mC6b).content.length = 20509 := by
    rw [hcontent]
    simp only [String.length_append, hbig, hA, hB, hC, hD]
  refine ⟨hbig, hbig, ?_, hlen, by omega⟩
  rw [hmerge]

theorem coreView_importRow (now newId : Nat) (r : Mem ℚ) :
    coreView (importRow now newId r) = importedView r := rfl

theorem tripleView_importRow (now newId : Nat) (r : Mem ℚ) :
    tripleView (importRow now newId r) = (r.project, r.title, now) := rfl

theorem importMemories_fresh (t : Nat) (rows : List (Mem ℚ)) :
    ∀ (db0 : List (Mem ℚ)) (n tx : Nat),
    (∀ r ∈ rows, ∀ m ∈ db0,
      ¬ (m.project = r.project ∧ m.title = r.title ∧ m.created_at = t)) →
    (rows.map pairView).Nodup →
    (rows.foldl (importStep t) ⟨db0, n, tx⟩).imported = n + rows.length ∧
    (rows.foldl (importStep t) ⟨db0, n, tx⟩).db.map coreView =
      db0.map coreView ++ rows.map importedView ∧
    (rows.foldl (importStep t) ⟨db0, n, tx⟩).db.map tripleView =
      db0.map tripleView ++ rows.map (fun r => (r.project, r.title, t)) ∧
    (rows.foldl (importStep t) ⟨db0, n, tx⟩).txCount = tx := by
  induction rows with
  | nil => intro db0 n tx _ _; simp
  | cons r rest ih =>
    intro db0 n tx hfresh hnd
    have hno : (db0.any (fun m =>
        decide (m.project = r.project ∧ m.title = r.title ∧
          m.created_at = t))) = false := by
      rw [List.any_eq_false]
      intro m hm
      simp only [decide_eq_true_eq]
      exact hfresh r (List.mem_cons_self r rest) m hm
    rw [List.foldl_cons]
    have hstep : importStep t ⟨db0, n, tx⟩ r =
        ⟨db0 ++ [importRow t (nextId db0) r], n + 1, tx⟩ := by
      unfold importStep
      rw [if_neg (by rw [hno]; exact Bool.false_ne_true)]
    rw [hstep]
    have hfresh' : ∀ r' ∈ rest, ∀ m ∈ db0 ++ [importRow t (nextId db0) r],
        ¬ (m.project = r'.project ∧ m.title = r'.title ∧
          m.created_at = t) := by
      intro r' hr' m hm
      rcases List.mem_append.mp hm with hm0 | hm1
      · exact hfresh r' (List.mem_cons_of_mem r hr') m hm0
      · have hmr : m = importRow t (nextId db0) r := List.mem_singleton.mp hm1
        subst hmr
        rintro ⟨hp, ht', _⟩
        have hp' : r.project = r'.project := hp
        have ht'' : r.title = r'.title := ht'
        have hhead : pairView r ∉ rest.map pairView :=
          (List.nodup_cons.mp (by rwa [List.map_cons] at hnd)).1
        apply hhead
        have hpair : pairView r = pairView r' := by
          unfold pairView
          rw [hp', ht'']
        rw [hpair]
        exact List.mem_map.mpr ⟨r', hr', rfl⟩
    have hnd' : (rest.map pairView).Nodup :=
      (List.nodup_cons.mp (by rwa [List.map_cons] at hnd)).2
    rcases ih (db0 ++ [importRow t (nextId db0) r]) (n + 1) tx hfresh' hnd'
      with ⟨hi, hc, htr, htx⟩
    refine ⟨by rw [hi]; simp; omega, ?_, ?_, htx⟩
    · rw [hc, List.map_append, List.map_cons]
      simp [coreView_importRow]
    · rw [htr, List.map_append, List.map_cons]
      simp [tripleView_importRow]

theorem importMemories_dup (t : Nat) (rows : List (Mem ℚ)) :
    ∀ (db0 : List (Mem ℚ)) (n tx : Nat),
    (∀ r ∈ rows, db0.any (fun m =>
      decide (m.project = r.project ∧ m.title = r.title ∧
        m.created_at = t)) = true) →
    rows.foldl (importStep t) ⟨db0, n, tx⟩ = ⟨db0, n, tx⟩ := by
  induction rows with
  | nil => intro db0 n tx _; rfl
  | cons r rest ih =>
    intro db0 n tx hdup
    rw [List.foldl_cons]
    have hstep : importStep t ⟨db0, n, tx⟩ r = ⟨db0, n, tx⟩ := by
      unfold importStep
      rw [if_pos (hdup r (List.mem_cons_self r rest))]
    rw [hstep]
    exact ih db0 n tx (fun r' hr' => hdup r' (List.mem_cons_of_mem r hr'))

theorem exportMemories_none_perm (db : List (Mem ℚ)) :
    (exportMemories db none).Perm db := by
  unfold exportMemories
  have : db.filter (fun m =>
      (match (none : Option String) with
        | none => true
        | some p => decide (m.project = p))) = db :=
    List.filter_eq_self.mpr (fun m _ => rfl)
  rw [this]
  exact stableSort_perm _ db

/-- Claim C7 amended: exporting and importing into an empty table at
time `t` preserves, for every row, exactly the eight columns the
`INSERT` lists — type, category, title, content, project, tags,
salience (when nonzero) and metadata (when nonempty) — as a multiset;
it imports every row when the `(project, title)` pairs are distinct;
and importing the same data again at the same time `t` inserts nothing
and leaves the table unchanged.  (Other columns — `access_count`,
`last_accessed`, `created_at`, `decayed_score` — are reset, and
re-importing at a *different* time duplicates rows; see the
counterexample.) -/
theorem claim_C7_amended_roundtrip (db : List (Mem ℚ)) (t : Nat)
    (hsal : ∀ m ∈ db, m.salience ≠ 0)
    (hmeta : ∀ m ∈ db, m.metadata ≠ "")
    (hpt : (db.map pairView).Nodup) :
    (importMemories [] (exportMemories db none) t).imported = db.length ∧
    ((importMemories [] (exportMemories db none) t).db.map coreView).Perm
      (db.map coreView) ∧
    importMemories (importMemories [] (exportMemories db none) t).db
      (exportMemories db none) t =
      ⟨(importMemories [] (exportMemories db none) t).db, 0, 1⟩ := by
  set rows := exportMemories db none with hrows
  have hperm : rows.Perm db := exportMemories_none_perm db
  have hnd : (rows.map pairView).Nodup :=
    ((hperm.map pairView).nodup_iff).mpr hpt
  have h1 := importMemories_fresh t rows [] 0 1
    (fun r _ m hm => absurd hm (List.not_mem_nil m)) hnd
  rcases h1 with ⟨hi, hc, htr, _⟩
  have hiv : rows.map importedView = rows.map coreView := by
    apply List.map_congr_left
    intro r hr
    have hrdb : r ∈ db := hperm.mem_iff.mp hr
    unfold importedView coreView
    rw [if_neg (hsal r hrdb), if_neg (hmeta r hrdb)]
  refine ⟨?_, ?_, ?_⟩
  · rw [show importMemories [] rows t =
      rows.foldl (importStep t) ⟨[], 0, 1⟩ from rfl, hi, hperm.length_eq]
    simp
  · rw [show importMemories [] rows t =
      rows.foldl (importStep t) ⟨[], 0, 1⟩ from rfl, hc, hiv]
    simpa using hperm.map coreView
  · set db1 := (importMemories [] rows t).db with hdb1
    have htr1 : db1.map tripleView =
        rows.map (fun r => (r.project, r.title, t)) := by
      rw [hdb1, show importMemories [] rows t =
        rows.foldl (importStep t) ⟨[], 0, 1⟩ from rfl, htr]
      simp
    have hdup : ∀ r ∈ rows, db1.any (fun m =>
        decide (m.project = r.project ∧ m.title = r.title ∧
          m.created_at = t)) = true := by
      intro r hr
      have : (r.project, r.title, t) ∈ db1.map tripleView := by
        rw [htr1]
        exact List.mem_map.mpr ⟨r, hr, rfl⟩
      rcases List.mem_map.mp this with ⟨m, hm, hv⟩
      apply List.any_eq_true.mpr
      refine ⟨m, hm, decide_eq_true ?_⟩
      unfold tripleView at hv
      exact ⟨congrArg (fun p => p.1) hv,
        congrArg (fun p => p.2.1) hv, congrArg (fun p => p.2.2) hv⟩
    have := importMemories_dup t rows db1 0 1 hdup
    rw [show importMemories db1 rows t =
      rows.foldl (importStep t) ⟨db1, 0, 1⟩ from rfl, this]

/-- Counterexample to claim C7 as stated: a round trip through
export/import resets `access_count` from 5 to 0 (so not every field is
preserved), and re-importing the same data at a later wall-clock time
inserts a duplicate row instead of being skipped. -/
theorem claim_C7_counterexample :
    mC7.access_count = 5 ∧
    ((importMemories [] (exportMemories [mC7] none) 7).db.map
      (fun m => m.access_count)) = [0] ∧
    (importMemories (importMemories [] (exportMemories [mC7] none) 7).db
      (exportMemories [mC7] none) 8).imported = 1 := by
  refine ⟨rfl, ?_, ?_⟩ <;> rfl

/-- Witness for the amended C7 at a concrete one-row table. -/
theorem claim_C7_witness :
    (importMemories [] (exportMemories [mC7w] none) 7).imported = 1 ∧
    (((importMemories [] (exportMemories [mC7w] none) 7).db.map
        coreView).Perm ([mC7w].map coreView) ∧
      importMemories (importMemories [] (exportMemories [mC7w] none) 7).db
        (exportMemories [mC7w] none) 7 =
        ⟨(importMemories [] (exportMemories [mC7w] none) 7).db, 0, 1⟩) := by
  have h := claim_C7_amended_roundtrip [mC7w] 7
    (by
      intro m hm
      rw [List.mem_singleton.mp hm]
      norm_num [mC7w])
    (by
      intro m hm
      rw [List.mem_singleton.mp hm]
      decide)
    (by decide)
  exact ⟨h.1, h.2.1, h.2.2⟩

theorem strBar_data : ("|" : String).data = [chrBar] := rfl

theorem mem_firstDedupAux {α : Type} [DecidableEq α] (l : List α) :
    ∀ (seen : List α) (x : α), x ∈ firstDedupAux l seen ↔ x ∈ l ∧ x ∉ seen := by
  induction l with
  | nil => intro seen x; simp [firstDedupAux]
  | cons a l ih =>
    intro seen x
    by_cases ha : a ∈ seen
    · rw [firstDedupAux, if_pos ha, ih]
      constructor
      · rintro ⟨h1, h2⟩
        exact ⟨List.mem_cons_of_mem a h1, h2⟩
      · rintro ⟨h1, h2⟩
        rcases List.mem_cons.mp h1 with rfl | h1
        · exact absurd ha h2
        · exact ⟨h1, h2⟩
    · rw [firstDedupAux, if_neg ha]
      constructor
      · intro hx
        rcases List.mem_cons.mp hx with rfl | hx
        · exact ⟨List.mem_cons_self x l, ha⟩
        · obtain ⟨h1, h2⟩ := (ih (a :: seen) x).mp hx
          exact ⟨List.mem_cons_of_mem a h1,
            fun hs => h2 (List.mem_cons_of_mem a hs)⟩
      · rintro ⟨h1, h2⟩
        rcases List.mem_cons.mp h1 with rfl | h1
        · exact List.mem_cons_self x _
        · rcases eq_or_ne x a with rfl | hxa
          · exact List.mem_cons_self x _
          · refine List.mem_cons_of_mem a ((ih (a :: seen) x).mpr ⟨h1, ?_⟩)
            intro hs
            rcases List.mem_cons.mp hs with h | h
            · exact hxa h
            · exact h2 h

theorem mem_firstDedup {α : Type} [DecidableEq α] (l : List α) (x : α) :
    x ∈ firstDedup l ↔ x ∈ l := by
  unfold firstDedup
  rw [mem_firstDedupAux l [] x]
  simp

theorem foldl_add_access (l : List (Mem ℚ)) :
    ∀ s0 : Nat, l.foldl (fun s m => s + m.access_count) s0 =
      s0 + (l.map (fun m => m.access_count)).sum := by
  induction l with
  | nil => intro s0; simp
  | cons a l ih =>
    intro s0
    simp only [List.foldl_cons, List.map_cons, List.sum_cons, ih]
    omega

theorem greedyClusters_eq (sim : Nat → Nat → ℚ) (thr : ℚ) (n : Nat) :
    greedyClusters sim thr n =
      ((List.range n).foldl (clusterStep sim thr n) ([], [])).1 := rfl

theorem greedyClusters_aux (sim : Nat → Nat → ℚ) (thr : ℚ) (n : Nat)
    (l : List Nat) :
    ∀ st : List (List Nat) × List Nat,
      (∀ i ∈ l, i < n) →
      (∀ c ∈ st.1, 2 ≤ c.length ∧ ∃ i rest, c = i :: rest ∧ i < n ∧
        ∀ j ∈ rest, i < j ∧ j < n ∧ thr ≤ sim i j) →
      ∀ c ∈ (l.foldl (clusterStep sim thr n) st).1,
        2 ≤ c.length ∧ ∃ i rest, c = i :: rest ∧ i < n ∧
          ∀ j ∈ rest, i < j ∧ j < n ∧ thr ≤ sim i j := by
  induction l with
  | nil => intro st _ hst; simpa using hst
  | cons a l ih =>
    intro st hl hst
    simp only [List.foldl_cons]
    refine ih (clusterStep sim thr n st a)
      (fun i hi => hl i (List.mem_cons_of_mem a hi)) ?_
    unfold clusterStep
    by_cases hmem : a ∈ st.2
    · rw [if_pos hmem]; exact hst
    · rw [if_neg hmem]
      by_cases hlen : (buildCluster sim thr st.2 a n).length < 2
      · rw [if_pos hlen]; exact hst
      · rw [if_neg hlen]
        intro c hc
        rcases List.mem_append.mp hc with hc | hc
        · exact hst c hc
        · have hceq : c = buildCluster sim thr st.2 a n := by simpa using hc
          subst hceq
          refine ⟨by omega, a, _, rfl, hl a (List.mem_cons_self a l), ?_⟩
          intro j hj
          have hj' : j < n ∧ a < j ∧ j ∉ st.2 ∧ thr ≤ sim a j := by
            simpa [buildCluster] using hj
          exact ⟨hj'.2.1, hj'.1, hj'.2.2.2⟩

theorem greedyClusters_spec (sim : Nat → Nat → ℚ) (thr : ℚ) (n : Nat) :
    ∀ c ∈ greedyClusters sim thr n,
      2 ≤ c.length ∧ ∃ i rest, c = i :: rest ∧ i < n ∧
        ∀ j ∈ rest, i < j ∧ j < n ∧ thr ≤ sim i j := by
  rw [greedyClusters_eq]
  exact greedyClusters_aux sim thr n (List.range n) ([], [])
    (fun i hi => List.mem_range.mp hi) (by simp)

theorem clusterLt_asym (a b : Mem ℚ) (h : clusterLt a b = true) :
    clusterLt b a = false := by
  unfold clusterLt at h ⊢
  exact decide_eq_false (not_lt.mpr (le_of_lt (of_decide_eq_true h)))

theorem clusterLt_negtrans (a b c : Mem ℚ) (h1 : clusterLt c b = false)
    (h2 : clusterLt b a = false) : clusterLt c a = false := by
  unfold clusterLt at h1 h2 ⊢
  have hcb := not_lt.mp (of_decide_eq_false h1)
  have hba := not_lt.mp (of_decide_eq_false h2)
  exact decide_eq_false (not_lt.mpr (hcb.trans hba))

theorem mergeCluster_spec (cluster : List (Mem ℚ)) (hne : cluster ≠ []) :
    ∃ base others, stableSort clusterLt cluster = base :: others ∧
      (base :: others).Perm cluster ∧
      (∀ m ∈ cluster, m.salience ≤ base.salience) ∧
      mergeCluster cluster =
        ({ base with
            type := MemType.long_term
            content := base.content ++ "\n\nConsolidated context:\n" ++
              String.intercalate "\n"
                (others.map (fun m => "- " ++ m.title ++ ": " ++ m.content))
            tags := firstDedup ((base :: others).flatMap (fun m => m.tags))
            salience := min 1 (base.salience + 1/10)
            access_count :=
              ((base :: others).map (fun m => m.access_count)).sum },
          others.map (fun m => m.id)) ∧
      (∀ s, s ∈ (mergeCluster cluster).1.tags ↔ ∃ m ∈ cluster, s ∈ m.tags) := by
  have hperm0 := stableSort_perm clusterLt cluster
  cases hs : stableSort clusterLt cluster with
  | nil =>
    rw [hs] at hperm0
    exact absurd (List.nil_perm.mp hperm0) hne
  | cons base others =>
    rw [hs] at hperm0
    have hpw := stableSort_pairwise clusterLt clusterLt_asym
      clusterLt_negtrans cluster
    rw [hs] at hpw
    have hbnd := (List.pairwise_cons.mp hpw).1
    have hmax : ∀ m ∈ cluster, m.salience ≤ base.salience := by
      intro m hm
      rcases List.mem_cons.mp (hperm0.mem_iff.mpr hm) with rfl | hmo
      · exact le_refl _
      · have hlt := hbnd m hmo
        unfold clusterLt at hlt
        exact not_lt.mp (of_decide_eq_false hlt)
    have hmc : mergeCluster cluster =
        ({ base with
            type := MemType.long_term
            content := base.content ++ "\n\nConsolidated context:\n" ++
              String.intercalate "\n"
                (others.map (fun m => "- " ++ m.title ++ ": " ++ m.content))
            tags := firstDedup ((base :: others).flatMap (fun m => m.tags))
            salience := min 1 (base.salience + 1/10)
            access_count :=
              ((base :: others).map (fun m => m.access_count)).sum },
          others.map (fun m => m.id)) := by
      simp only [mergeCluster, hs, foldl_add_access, Nat.zero_add]
    refine ⟨base, others, rfl, hperm0, hmax, hmc, ?_⟩
    intro s
    rw [hmc]
    show s ∈ firstDedup ((base :: others).flatMap (fun m => m.tags)) ↔ _
    rw [mem_firstDedup, List.mem_flatMap]
    constructor
    · rintro ⟨m, hm, hsm⟩
      exact ⟨m, hperm0.mem_iff.mp hm, hsm⟩
    · rintro ⟨m, hm, hsm⟩
      exact ⟨m, hperm0.mem_iff.mpr hm, hsm⟩

theorem append_bar_inj (xs : List Char) :
    ∀ (ys xs' ys' : List Char),
      (∀ c ∈ xs, c ≠ chrBar) → (∀ c ∈ ys, c ≠ chrBar) →
      xs ++ chrBar :: xs' = ys ++ chrBar :: ys' → xs = ys ∧ xs' = ys' := by
  induction xs with
  | nil =>
    intro ys xs' ys' _ hy h
    cases ys with
    | nil => simpa using h
    | cons d ys =>
      exfalso
      simp only [List.nil_append, List.cons_append, List.cons.injEq] at h
      exact hy d (List.mem_cons_self d ys) h.1.symm
  | cons c xs ih =>
    intro ys xs' ys' hx hy h
    cases ys with
    | nil =>
      exfalso
      simp only [List.cons_append, List.nil_append, List.cons.injEq] at h
      exact hx c (List.mem_cons_self c xs) h.1
    | cons d ys =>
      simp only [List.cons_append, List.cons.injEq] at h
      obtain ⟨rfl, h2⟩ := h
      obtain ⟨h3, h4⟩ := ih ys xs' ys'
        (fun e he => hx e (List.mem_cons_of_mem c he))
        (fun e he => hy e (List.mem_cons_of_mem c he)) h2
      exact ⟨by rw [h3], h4⟩

theorem memKey_inj (a b : Mem ℚ)
    (hpa : ∀ c ∈ a.project.data, c ≠ chrBar)
    (hpb : ∀ c ∈ b.project.data, c ≠ chrBar) :
    memKey a = memKey b ↔ a.project = b.project ∧ a.category = b.category := by
  constructor
  · intro h
    have hdata := congrArg String.data h
    rw [memKey, memKey, String.data_append, String.data_append,
      String.data_append, String.data_append, strBar_data,
      List.append_assoc, List.append_assoc, List.singleton_append,
      List.singleton_append] at hdata
    obtain ⟨h1, h2⟩ := append_bar_inj a.project.data b.project.data
      a.category.data b.category.data hpa hpb hdata
    exact ⟨String.ext h1, String.ext h2⟩
  · rintro ⟨h1, h2⟩
    rw [memKey, memKey, h1, h2]

/-- Claim C2 (amended): `mergeSimilarMemories` selects the short-term
rows and groups them by the string key `project + "|" + category` —
which agrees with grouping by the pair `(project, category)` exactly
when the project names are free of the separator character; each group
is clustered greedily, a kept cluster being a seed index followed by the
later unclustered indices whose combined similarity
`0.6 * content_jaccard + 0.4 * title_jaccard` with the seed reaches the
threshold, with at least two members; each cluster is merged into its
highest-salience member by appending bullet summaries of the others
under a `Consolidated context:` header, taking the union of all tags
and the sum of all access counts, and boosting the base's salience by
0.1 clamped to 1.0; every non-base member's id is deleted and absent
from the resulting table. -/
theorem claim_C2_amended_merge_by_string_key (db : List (Mem ℚ)) (thr : ℚ) :
    (∀ m ∈ mergeSelection db none, m.type = MemType.short_term) ∧
    (∀ g ∈ groupsOf (mergeSelection db none), ∀ a ∈ g, ∀ b ∈ g,
      memKey a = memKey b) ∧
    (∀ a b : Mem ℚ,
      (∀ c ∈ a.project.data, c ≠ chrBar) →
      (∀ c ∈ b.project.data, c ≠ chrBar) →
      (memKey a = memKey b ↔
        a.project = b.project ∧ a.category = b.category)) ∧
    (∀ sim : Nat → Nat → ℚ, ∀ n : Nat, ∀ c ∈ greedyClusters sim thr n,
      2 ≤ c.length ∧ ∃ i rest, c = i :: rest ∧ i < n ∧
        ∀ j ∈ rest, i < j ∧ j < n ∧ thr ≤ sim i j) ∧
    (∀ cluster : List (Mem ℚ), cluster ≠ [] →
      ∃ base others, stableSort clusterLt cluster = base :: others ∧
        (base :: others).Perm cluster ∧
        (∀ m ∈ cluster, m.salience ≤ base.salience) ∧
        mergeCluster cluster =
          ({ base with
              type := MemType.long_term
              content := base.content ++ "\n\nConsolidated context:\n" ++
                String.intercalate "\n"
                  (others.map (fun m => "- " ++ m.title ++ ": " ++ m.content))
              tags := firstDedup ((base :: others).flatMap (fun m => m.tags))
              salience := min 1 (base.salience + 1/10)
              access_count :=
                ((base :: others).map (fun m => m.access_count)).sum },
            others.map (fun m => m.id)) ∧
        (∀ s, s ∈ (mergeCluster cluster).1.tags ↔
          ∃ m ∈ cluster, s ∈ m.tags)) ∧
    (∀ m' ∈ (mergeSimilarMemories db none thr).db,
      m'.id ∉ (mergePlans db none thr).flatMap (fun pl => pl.2)) ∧
    (mergeSimilarMemories db none thr).deleted =
      ((mergePlans db none thr).flatMap (fun pl => pl.2)).length := by
  refine ⟨?_, ?_, memKey_inj, fun sim n => greedyClusters_spec sim thr n,
    mergeCluster_spec, ?_, rfl⟩
  · intro m hm
    unfold mergeSelection at hm
    have hmem := (stableSort_perm _ _).mem_iff.mp hm
    have hp := (List.mem_filter.mp hmem).2
    rw [Bool.and_eq_true] at hp
    exact of_decide_eq_true hp.1
  · intro g hg a ha b hb
    unfold groupsOf at hg
    rcases List.mem_map.mp hg with ⟨k, hk, rfl⟩
    have ha' := of_decide_eq_true (List.mem_filter.mp ha).2
    have hb' := of_decide_eq_true (List.mem_filter.mp hb).2
    rw [ha', hb']
  · intro m' hm'
    simp only [mergeSimilarMemories] at hm'
    rcases List.mem_map.mp hm' with ⟨m, hm, rfl⟩
    have hnotdel :
        m.id ∉ (mergePlans db none thr).flatMap (fun pl => pl.2) := by
      have hfil := of_decide_eq_true (List.mem_filter.mp hm).2
      intro hmem
      exact hfil (by simpa [List.contains] using List.elem_iff.mpr hmem)
    cases hfind : ((mergePlans db none thr).map (fun pl => pl.1)).find?
        (fun b => b.id = m.id) with
    | none => simpa [hfind] using hnotdel
    | some b =>
      have hfs := List.find?_some hfind
      have hbid : b.id = m.id := by simpa using hfs
      simpa [hfind, hbid] using hnotdel

/-- Counterexample to claim C2: the grouping is by the string key, not
by the pair `(project, category)` — two rows that differ in both
project and category but share the key `"x||y"` are clustered together
and merged. -/
theorem claim_C2_counterexample :
    mC2a.project ≠ mC2b.project ∧ mC2a.category ≠ mC2b.category ∧
    memKey mC2a = memKey mC2b ∧
    mergeSimilarMemories [mC2a, mC2b] none (1/4) =
      ⟨[mergedPair mC2a mC2b], 1, 1⟩ := by
  refine ⟨by decide, by decide, by decide, ?_⟩
  exact mergeSimilar_pair mC2a mC2b (1/4)
    rfl rfl (by decide) (by decide)
    (by
      simp [combinedSim, mC2a, mC2b, jaccardFromSets_self]
      norm_num)
    (by norm_num [mC2a, mC2b]) (by decide)

end CortexCore
